import Mathlib

/-!
# Verification of the aoc-2021 repository

A shallow embedding of the Rust sources of `zunino/aoc-2021` in Lean 4,
together with proofs and refutations of a list of claims about them.

Conventions of the embedding:
* Rust machine integers (`u8`, `u32`, `u64`, `usize`) are modelled as `Nat`;
  where wrap-around can actually occur and matters (the `u64` accumulator of
  the day-16 literal-value parser) the reduction `% 2 ^ 64` is made explicit.
  `usize::MAX` is the explicit constant `usizeMAX = 2 ^ 64 - 1`.
* A Rust `panic!` / `unwrap` failure is modelled as `Option.none`; `Result`
  is modelled as `Except`.
* `while` loops and recursions whose termination is not structural receive an
  explicit fuel parameter; running out of fuel yields `none`.  Theorems about
  such functions either quantify over sufficient fuel or provide it.
-/

/-! ## lib.rs: shared helpers -/

/-- `usize::MAX` on a 64-bit target. -/
def usizeMAX : Nat := 2 ^ 64 - 1

/-- Rust `str::trim` (whitespace stripped from both ends), written as a
structural recursion over the character list so that it evaluates inside the
kernel (`String.trim` itself is implemented with byte positions and does not
reduce). -/
def rust_trim (s : String) : String :=
  String.mk (((s.toList.dropWhile Char.isWhitespace).reverse.dropWhile
    Char.isWhitespace).reverse)

/-- Rust `str::split("\n")` over the character list. -/
def split_lines_go : List Char → List (List Char)
  | [] => [[]]
  | c :: cs =>
      if c = '\n' then [] :: split_lines_go cs
      else
        match split_lines_go cs with
        | [] => [[c]]
        | l :: ls => (c :: l) :: ls

/-- Rust `str::split("\n")` on a string: the pieces between newlines, with
empty pieces kept. -/
def split_lines (s : String) : List String :=
  (split_lines_go s.toList).map String.mk

/-- Rust `str::parse::<u32>` (`u32::from_str`): an optional leading `+`,
then one or more ASCII digits, value below `2 ^ 32`; anything else is an
error (`None` here). -/
def u32_from_str (s : String) : Option Nat :=
  let cs := s.toList
  let ds := if cs.headD ' ' = '+' then cs.tail else cs
  if ds = [] then none
  else if ds.all (fun c => c.isDigit) then
    let v := ds.foldl (fun acc c => 10 * acc + (c.toNat - '0'.toNat)) 0
    if v < 2 ^ 32 then some v else none
  else none

/-- `lib.rs::parse_input`, specialised to the pure part: the file contents are
split on `"\n"`, blank lines are dropped, and each remaining line is parsed,
with `filter_map (|line| line.parse().ok())` dropping the lines that fail to
parse.  The parser for the element type is a parameter. -/
def parse_input {α : Type} (p : String → Option α) (contents : String) : List α :=
  (split_lines contents).filterMap
    (fun line => if (rust_trim line).isEmpty then none else p line)

/-- `day-01.rs::main`, to the extent relevant to error handling: a missing
input file (`none`) makes `std::fs::read_to_string` fail and the `?` operator
aborts `main` with the error; otherwise the readings are parsed. -/
def main_day_01 (file : Option String) : Except Unit (List Nat) :=
  match file with
  | none => Except.error ()
  | some contents => Except.ok (parse_input u32_from_str contents)

/-- `lib.rs::bit_str_to_u64`: trim, empty gives 0, otherwise iterate over the
characters in reverse adding `addition_term` for each `'1'` and doubling it.
(The `u64` accumulators are modelled as `Nat`; wrap-around would need a bit
string of more than 64 characters.) -/
def bit_str_to_u64 (bit_str : String) : Nat :=
  let t := rust_trim bit_str
  if t.length = 0 then 0
  else
    (t.toList.reverse.foldl
      (fun (acc : Nat × Nat) b =>
        (if b = '1' then acc.1 + acc.2 else acc.1, acc.2 * 2))
      (0, 1)).1

/-- Value of one ASCII hex digit, as accepted by `u8::from_str_radix(_, 16)`. -/
def hexDigitVal (c : Char) : Option Nat :=
  if '0' ≤ c ∧ c ≤ '9' then some (c.toNat - '0'.toNat)
  else if 'a' ≤ c ∧ c ≤ 'f' then some (c.toNat - 'a'.toNat + 10)
  else if 'A' ≤ c ∧ c ≤ 'F' then some (c.toNat - 'A'.toNat + 10)
  else none

/-- `lib.rs::hex_str_to_u8_vec`: the input is consumed two characters at a
time, each pair converted with `u8::from_str_radix(_, 16).unwrap()`.  An odd
trailing character or a non-hex character makes the Rust code panic (`none`). -/
def hex_str_to_u8_vec (input : String) : Option (List Nat) :=
  go input.toList
where
  go : List Char → Option (List Nat)
    | [] => some []
    | [_] => none
    | c1 :: c2 :: rest => do
        let d1 ← hexDigitVal c1
        let d2 ← hexDigitVal c2
        let tl ← go rest
        pure ((16 * d1 + d2) :: tl)

/-- `lib.rs::extract_bits_from_byte`.  All arithmetic is on `u8`; the
subtraction `8 - bit_count - bit_offset` is `Nat` truncated subtraction, which
agrees with Rust at every call site (`bit_count + bit_offset ≤ 8` there). -/
def extract_bits_from_byte (byte_value start_bit bit_count : Nat) : Nat :=
  let bit_offset := start_bit % 8
  let extracted :=
    if bit_offset > 0 then byte_value &&& ((1 <<< (8 - bit_offset)) - 1)
    else byte_value
  extracted >>> (8 - bit_count - bit_offset)

/-- The `while remaining_bits > 0` loop of `lib.rs::extract_bits`.  `fuel`
bounds the number of iterations; `extract_bits` passes enough of it and the
out-of-fuel `none` branch is proved unreachable.  An out-of-range byte index
(a Rust panic) also gives `none`. -/
def extract_bits_loop (bytes : List Nat) :
    Nat → Nat → Nat → Nat → Nat → Option Nat
  | 0, _, remaining_bits, _, extracted =>
      if remaining_bits = 0 then some extracted else none
  | fuel + 1, byte_index, remaining_bits, bit_offset, extracted =>
      if remaining_bits = 0 then some extracted
      else
        match bytes[byte_index]? with
        | none => none
        | some b =>
            let bit_count_in_byte := min remaining_bits (8 - bit_offset)
            let bits := extract_bits_from_byte b bit_offset bit_count_in_byte
            let remaining := remaining_bits - bit_count_in_byte
            extract_bits_loop bytes fuel (byte_index + 1) remaining 0
              (extracted ||| (bits <<< remaining))

/-- `lib.rs::extract_bits`.  The outer `Option` is the panic monad (`none`
never actually occurs, see `extract_bits_total`); the `Except` layer is the
function's own `Result`. -/
def extract_bits (bytes : List Nat) (start_bit bit_count : Nat) :
    Option (Except String Nat) :=
  let total_bits := bytes.length * 8
  if start_bit ≥ total_bits then some (Except.error "invalid start_bit")
  else if bit_count > 64 then some (Except.error "max value for bit_count is 64")
  else if start_bit + bit_count > total_bits then
    some (Except.error "not enough bits to extract")
  else
    (extract_bits_loop bytes bit_count (start_bit / 8) bit_count
        (start_bit % 8) 0).map Except.ok

/-! ## day-01.rs -/

/-- Rust `slice::windows(k)`: all contiguous sub-slices of length `k`
(`k = 0` panics in Rust and is never used; here it yields `[]`). -/
def windows (k : Nat) : List Nat → List (List Nat)
  | [] => []
  | x :: xs =>
      if k = 0 ∨ xs.length + 1 < k then []
      else (x :: xs).take k :: windows k xs

/-- `day-01.rs::count_window_increases`: fold over the windows, starting the
previous sum at `u32::MAX`, counting the windows whose sum exceeds the
previous one.  (`u32` sums modelled as `Nat`.) -/
def count_window_increases (readings : List Nat) (window_size : Nat) : Nat :=
  ((windows window_size readings).foldl
    (fun (acc : Nat × Nat) w =>
      let curr_sum := w.sum
      (curr_sum, if curr_sum > acc.1 then acc.2 + 1 else acc.2))
    (2 ^ 32 - 1, 0)).2

/-- `day-01.rs::count_increases`. -/
def count_increases (readings : List Nat) : Nat :=
  count_window_increases readings 1

/-! ## Bit-level specification used to state the claims about
`extract_bits` -/

/-- Bit `i` of a byte sequence read most-significant-bit first:
bit `i % 8` from the top of byte `i / 8`. -/
def bitAt (bytes : List Nat) (i : Nat) : Nat :=
  ((bytes.getD (i / 8) 0) >>> (7 - i % 8)) &&& 1

/-- The unsigned integer whose big-endian binary representation is the
`count` bits of `bytes` starting at bit `start`. -/
def bitsValue (bytes : List Nat) (start count : Nat) : Nat :=
  (List.range count).foldl (fun acc j => 2 * acc + bitAt bytes (start + j)) 0

/-! ## day-16.rs: BITS transmission parser -/

mutual
inductive TransmissionPacket : Type where
  | mk (version : Nat) (type_id : Nat) (payload : PacketPayload)

inductive PacketPayload : Type where
  | LiteralValue (v : Nat)
  | Operator (subpackets : List TransmissionPacket)
end

def TransmissionPacket.version : TransmissionPacket → Nat
  | .mk v _ _ => v

def TransmissionPacket.type_id : TransmissionPacket → Nat
  | .mk _ t _ => t

def TransmissionPacket.payload : TransmissionPacket → PacketPayload
  | .mk _ _ p => p

/-- `extract_bits(..).unwrap()`: an `Err` result makes the Rust caller panic. -/
def extract_bits_unwrap (bytes : List Nat) (start_bit bit_count : Nat) :
    Option Nat :=
  match extract_bits bytes start_bit bit_count with
  | some (Except.ok v) => some v
  | _ => none

/-- The `while groups_remaining` loop of
`day-16.rs::parse_literal_value_payload`.  Arguments after the fuel:
`group_start_bit`, the `u64` accumulator `value`, and `bits_read`.
`value <<= 4` silently discards high bits on `u64`, hence the `% 2 ^ 64`. -/
def parse_literal_loop (bytes : List Nat) :
    Nat → Nat → Nat → Nat → Option (Nat × Nat)
  | 0, _, _, _ => none
  | fuel + 1, group_start_bit, value, bits_read =>
      match extract_bits_unwrap bytes group_start_bit 5 with
      | none => none
      | some group_bits =>
          let low_bits := group_bits &&& 0b01111
          let value := (value <<< 4) % 2 ^ 64 + low_bits
          if group_bits >>> 4 = 1 then
            parse_literal_loop bytes fuel (group_start_bit + 5) value
              (bits_read + 5)
          else some (value, bits_read + 5)

/-- `day-16.rs::parse_literal_value_payload`, returning
`(value, bits_read)`. -/
def parse_literal_value_payload (fuel : Nat) (bytes : List Nat)
    (start_bit : Nat) : Option (Nat × Nat) :=
  parse_literal_loop bytes fuel start_bit 0 0

mutual
/-- `day-16.rs::parse_transmission_packet`, returning the packet and
`bits_read`.  The Rust function's `Result` is always `Ok`; internal `unwrap`
panics and fuel exhaustion are `none`. -/
def parse_transmission_packet (bytes : List Nat) :
    Nat → Nat → Option (TransmissionPacket × Nat)
  | 0, _ => none
  | fuel + 1, start_bit => do
      let version ← extract_bits_unwrap bytes start_bit 3
      let type_id ← extract_bits_unwrap bytes (start_bit + 3) 3
      if type_id = 4 then do
        let r ← parse_literal_value_payload fuel bytes (start_bit + 6)
        pure (.mk version type_id (.LiteralValue r.1), 6 + r.2)
      else do
        let r ← parse_operator_payload bytes fuel (start_bit + 6)
        pure (.mk version type_id r.1, 6 + r.2)
termination_by structural fuel => fuel

/-- `day-16.rs::parse_operator_payload`: one mode bit, then either a 15-bit
total subpacket bit length or an 11-bit subpacket count. -/
def parse_operator_payload (bytes : List Nat) :
    Nat → Nat → Option (PacketPayload × Nat)
  | 0, _ => none
  | fuel + 1, start_bit => do
      let mode ← extract_bits_unwrap bytes start_bit 1
      if mode = 0 then do
        let subpackets_bit_length ← extract_bits_unwrap bytes (start_bit + 1) 15
        let r ← parse_subpackets_by_length bytes fuel (start_bit + 16)
          subpackets_bit_length 0 []
        pure (.Operator r.1, 16 + r.2)
      else do
        let subpacket_count ← extract_bits_unwrap bytes (start_bit + 1) 11
        let r ← parse_subpackets_by_count bytes fuel (start_bit + 12)
          subpacket_count 0 0 []
        pure (.Operator r.1, 12 + r.2)
termination_by structural fuel => fuel

/-- The `while subpacket_bits_read < subpackets_bit_length` loop (mode 0).
`base` is `start_bit + bits_read` of the Rust code, `read` the accumulated
`subpacket_bits_read`, `acc` the subpackets so far. -/
def parse_subpackets_by_length (bytes : List Nat) :
    Nat → Nat → Nat → Nat → List TransmissionPacket →
      Option (List TransmissionPacket × Nat)
  | 0, _, _, _, _ => none
  | fuel + 1, base, len, read, acc =>
      if read < len then do
        let r ← parse_transmission_packet bytes fuel (base + read)
        parse_subpackets_by_length bytes fuel base len (read + r.2)
          (acc ++ [r.1])
      else pure (acc, read)
termination_by structural fuel => fuel

/-- The `while subpackets_read < subpacket_count` loop (mode 1). -/
def parse_subpackets_by_count (bytes : List Nat) :
    Nat → Nat → Nat → Nat → Nat → List TransmissionPacket →
      Option (List TransmissionPacket × Nat)
  | 0, _, _, _, _, _ => none
  | fuel + 1, base, cnt, k, read, acc =>
      if k < cnt then do
        let r ← parse_transmission_packet bytes fuel (base + read)
        parse_subpackets_by_count bytes fuel base cnt (k + 1) (read + r.2)
          (acc ++ [r.1])
      else pure (acc, read)
termination_by structural fuel => fuel
end

mutual
/-- `day-16.rs::part_1::add_all_packet_versions`. -/
def add_all_packet_versions : TransmissionPacket → Nat
  | .mk version _ (.LiteralValue _) => version
  | .mk version _ (.Operator subpackets) =>
      version + add_all_versions_list subpackets

/-- The `for subpacket in subpackets` accumulation of
`add_all_packet_versions`. -/
def add_all_versions_list : List TransmissionPacket → Nat
  | [] => 0
  | p :: ps => add_all_packet_versions p + add_all_versions_list ps
end

/-- Rust `v as i64` for a `u64` value `v`: two's-complement reinterpretation. -/
def u64_as_i64 (v : Nat) : Int :=
  if v < 2 ^ 63 then (v : Int) else (v : Int) - 2 ^ 64

mutual
/-- `day-16.rs::part_2::evaluate_packet`.  The `i64` values are modelled as
`Int` (no `i64` overflow occurs in the comparisons the claims are about);
`Operation::try_from(..).unwrap()` and the `nth(0)/min/max` `unwrap`s panic on
invalid type ids or missing operands (`none`).  For type ids 5, 6 and 7 the
two `nth(0)` calls on the shared iterator yield the first and then the second
subpacket, in that order. -/
def evaluate_packet : TransmissionPacket → Option Int
  | .mk _ _ (.LiteralValue v) => some (u64_as_i64 v)
  | .mk _ type_id (.Operator subpackets) =>
      match type_id with
      | 0 => (evaluate_list subpackets).map (fun vs => vs.foldl (· + ·) 0)
      | 1 => (evaluate_list subpackets).map (fun vs => vs.foldl (· * ·) 1)
      | 2 => (evaluate_list subpackets).bind (fun vs => vs.min?)
      | 3 => (evaluate_list subpackets).bind (fun vs => vs.max?)
      | 5 =>
          match subpackets with
          | a :: b :: _ => do
              let x ← evaluate_packet a
              let y ← evaluate_packet b
              pure (if x > y then (1 : Int) else 0)
          | _ => none
      | 6 =>
          match subpackets with
          | a :: b :: _ => do
              let x ← evaluate_packet a
              let y ← evaluate_packet b
              pure (if x < y then (1 : Int) else 0)
          | _ => none
      | 7 =>
          match subpackets with
          | a :: b :: _ => do
              let x ← evaluate_packet a
              let y ← evaluate_packet b
              pure (if x = y then (1 : Int) else 0)
          | _ => none
      | _ => none

/-- Evaluation of all subpackets, as forced by `sum`, `product`, `min` and
`max` on the `evaluated_subpackets` iterator. -/
def evaluate_list : List TransmissionPacket → Option (List Int)
  | [] => some []
  | p :: ps => do
      let v ← evaluate_packet p
      let vs ← evaluate_list ps
      pure (v :: vs)
end

/-! ## Bit-level specification of the BITS format (claim C3) -/

/-- The literal-value payload encoding, as the code computes it: successive
5-bit groups starting at `pos`, accumulated into a `u64`
(`value <<= 4` wraps, hence the `% 2 ^ 64`), until a group whose leading bit
is 0.  `LiteralEnc bytes pos acc v n` says the groups starting at `pos`
turn the accumulator `acc` into the value `v`, reading `n` bits. -/
inductive LiteralEnc (bytes : List Nat) : Nat → Nat → Nat → Nat → Prop where
  | last (pos acc : Nat) :
      pos + 5 ≤ 8 * bytes.length →
      bitsValue bytes pos 5 >>> 4 = 0 →
      LiteralEnc bytes pos acc
        ((acc <<< 4) % 2 ^ 64 + (bitsValue bytes pos 5 &&& 0b01111)) 5
  | more (pos acc v n : Nat) :
      pos + 5 ≤ 8 * bytes.length →
      bitsValue bytes pos 5 >>> 4 = 1 →
      LiteralEnc bytes (pos + 5)
        ((acc <<< 4) % 2 ^ 64 + (bitsValue bytes pos 5 &&& 0b01111)) v n →
      LiteralEnc bytes pos acc v (n + 5)

/-- Modelled from the spec: the claim C3 reading of a literal payload, "the
literal value obtained by concatenating the low 4 bits of successive 5-bit
groups until a group whose leading bit is 0" — a pure concatenation with no
`u64` wrap-around.  Returns `(value, bits_read)`. -/
def literal_value_concat (bytes : List Nat) :
    Nat → Nat → Nat → Option (Nat × Nat)
  | 0, _, _ => none
  | fuel + 1, group_start_bit, value =>
      match extract_bits_unwrap bytes group_start_bit 5 with
      | none => none
      | some group_bits =>
          let value := value * 16 + (group_bits &&& 0b01111)
          if group_bits >>> 4 = 1 then
            (literal_value_concat bytes fuel (group_start_bit + 5) value).map
              (fun r => (r.1, r.2 + 5))
          else some (value, 5)

mutual
/-- `EncodesAt bytes s p n`: starting at bit `s`, the byte sequence encodes
the packet `p` in `n` bits, following the BITS format as claim C3 describes
it (and with the literal accumulator wrapping on `u64`, which is the
amendment): 3 version bits, 3 type-id bits; type id 4 is a literal payload;
otherwise one mode bit, then either a 15-bit total subpacket bit length
(mode 0) or an 11-bit subpacket count (mode 1) followed by exactly that many
bits resp. subpackets. -/
inductive EncodesAt : List Nat → Nat → TransmissionPacket → Nat → Prop where
  | literal (bytes : List Nat) (s v n : Nat) :
      s + 6 ≤ 8 * bytes.length →
      bitsValue bytes (s + 3) 3 = 4 →
      LiteralEnc bytes (s + 6) 0 v n →
      EncodesAt bytes s
        (.mk (bitsValue bytes s 3) 4 (.LiteralValue v)) (6 + n)
  | opLen (bytes : List Nat) (s : Nat) (subs : List TransmissionPacket) :
      s + 22 ≤ 8 * bytes.length →
      bitsValue bytes (s + 3) 3 ≠ 4 →
      bitsValue bytes (s + 6) 1 = 0 →
      EncodesListAt bytes (s + 22) subs (bitsValue bytes (s + 7) 15) →
      EncodesAt bytes s
        (.mk (bitsValue bytes s 3) (bitsValue bytes (s + 3) 3)
          (.Operator subs))
        (22 + bitsValue bytes (s + 7) 15)
  | opCnt (bytes : List Nat) (s m : Nat) (subs : List TransmissionPacket) :
      s + 18 ≤ 8 * bytes.length →
      bitsValue bytes (s + 3) 3 ≠ 4 →
      bitsValue bytes (s + 6) 1 = 1 →
      subs.length = bitsValue bytes (s + 7) 11 →
      EncodesListAt bytes (s + 18) subs m →
      EncodesAt bytes s
        (.mk (bitsValue bytes s 3) (bitsValue bytes (s + 3) 3)
          (.Operator subs))
        (18 + m)

/-- `EncodesListAt bytes pos subs m`: consecutive packets encoded starting
at bit `pos`, occupying `m` bits in total. -/
inductive EncodesListAt : List Nat → Nat → List TransmissionPacket → Nat →
    Prop where
  | nil (bytes : List Nat) (pos : Nat) : EncodesListAt bytes pos [] 0
  | cons (bytes : List Nat) (pos : Nat) (p : TransmissionPacket) (n : Nat)
      (ps : List TransmissionPacket) (m : Nat) :
      EncodesAt bytes pos p n →
      EncodesListAt bytes (pos + n) ps m →
      EncodesListAt bytes pos (p :: ps) (n + m)
end

/-! ## day-15.rs: risk-level map and Dijkstra search

The mutable `Vec<Vec<NodeInfo>>` of the Rust code stores, per cell, the
static `edge_cost` and the mutable `dist_from_src`.  The search state is
modelled with the static part as a cost function `Position → Nat` and the
mutable part as a separate function `dist : Position → Nat` (plus the heap
and the finished set), which is the standard functional reading of the
in-place updates `map.nodes[r][c].dist_from_src = ..`. -/

/-- `day-15.rs::Position` (row, col). -/
abbrev Position := Nat × Nat

/-- `day-15.rs::NodeInfo`. -/
structure NodeInfo where
  position : Position
  edge_cost : Nat
  dist_from_src : Nat
  deriving DecidableEq

/-- `NodeInfo::default()`. -/
def NodeInfo.default : NodeInfo :=
  ⟨(0, 0), 0, usizeMAX⟩

/-- `day-15.rs::RiskLevelMap`. -/
structure RiskLevelMap where
  nodes : List (List NodeInfo)
  width : Nat
  height : Nat

/-- `RiskLevelMap::new`: width is the length of row 0 (the Rust code indexes
`nodes[0]`, panicking on an empty map; `headD` stands in for that). -/
def RiskLevelMap.new (nodes : List (List NodeInfo)) : RiskLevelMap :=
  ⟨nodes, (nodes.headD []).length, nodes.length⟩

/-- `day-15.rs::part_2::EXPANSION_FACTOR`. -/
def EXPANSION_FACTOR : Nat := 5

/-- `day-15.rs::part_2::expand_map`: each of the 5×5 tiles repeats the
original map with the cost increased by `row / height + col / width`,
reduced by 9 whenever the sum exceeds 9; positions are set to the new
coordinates and `dist_from_src` keeps its `NodeInfo::default()` value. -/
def expand_map (map : RiskLevelMap) : RiskLevelMap :=
  let new_height := EXPANSION_FACTOR * map.height
  let new_width := EXPANSION_FACTOR * map.width
  RiskLevelMap.new ((List.range new_height).map (fun row =>
    (List.range new_width).map (fun col =>
      let src_row := row % map.height
      let src_col := col % map.width
      let vertical_cost_increase := row / map.height
      let horizontal_cost_increase := col / map.width
      let src := (map.nodes.getD src_row []).getD src_col NodeInfo.default
      let new_cost :=
        src.edge_cost + vertical_cost_increase + horizontal_cost_increase
      let new_cost := if new_cost > 9 then new_cost - 9 else new_cost
      ⟨(row, col), new_cost, usizeMAX⟩)))

/-- Strict lexicographic order on positions (`Position::cmp` is the derived
lexicographic order on `(row, col)`). -/
def pos_lt (p q : Position) : Bool :=
  p.1 < q.1 || (p.1 == q.1 && p.2 < q.2)

/-- `a ≤ b` in the `Ord for NodeInfo` order used by the `BinaryHeap`:
distances reversed (smaller distance = greater element), ties broken by
position.  `heap_le a b` says `b` pops no later than `a`. -/
def heap_le (a b : NodeInfo) : Bool :=
  b.dist_from_src < a.dist_from_src ||
    (b.dist_from_src == a.dist_from_src && !pos_lt b.position a.position)

/-- `BinaryHeap::pop`: remove a greatest element with respect to
`Ord for NodeInfo` (any two elements comparing equal are identical records
here, so which one is removed is immaterial). -/
def popMax : List NodeInfo → Option (NodeInfo × List NodeInfo)
  | [] => none
  | x :: xs =>
      match popMax xs with
      | none => some (x, [])
      | some (m, rest) =>
          if heap_le x m then some (m, x :: rest) else some (x, xs)

/-- `day-15.rs::candidate_neighbors`: left, top, right, bottom, within
bounds, skipping finished positions. -/
def candidate_neighbors (height width : Nat) (position : Position)
    (finished_positions : List Position) : List Position :=
  ((if 0 < position.2 then [(position.1, position.2 - 1)] else []) ++
   (if 0 < position.1 then [(position.1 - 1, position.2)] else []) ++
   (if position.2 < width - 1 then [(position.1, position.2 + 1)] else []) ++
   (if position.1 < height - 1 then [(position.1 + 1, position.2)] else [])).filter
    (fun c => !(finished_positions.contains c))

/-- The state of `shortest_path_to_bottom_right`: the `dist_from_src`
fields, the binary heap, and `finished_positions`. -/
structure DState where
  dist : Position → Nat
  heap : List NodeInfo
  finished : List Position

/-- The `for neighbor_position in neighbor_positions` loop: relax each
candidate, pushing the updated node, and return early (flag `true`) as soon
as the end position is improved. -/
def relax_loop (cost : Position → Nat) (end_pos : Position) (curr_dist : Nat) :
    List Position → (Position → Nat) → List NodeInfo →
      (Position → Nat) × List NodeInfo × Bool
  | [], dist, heap => (dist, heap, false)
  | n :: ns, dist, heap =>
      let cmp_dist := curr_dist + cost n
      if cmp_dist < dist n then
        let dist1 := Function.update dist n cmp_dist
        let heap1 := ⟨n, cost n, cmp_dist⟩ :: heap
        if n = end_pos then (dist1, heap1, true)
        else relax_loop cost end_pos curr_dist ns dist1 heap1
      else relax_loop cost end_pos curr_dist ns dist heap

/-- The `while let Some(curr_node_info) = heap.pop()` loop of
`day-15.rs::shortest_path_to_bottom_right`. -/
def dijkstra_loop (height width : Nat) (cost : Position → Nat)
    (end_pos : Position) : Nat → DState → Option DState
  | 0, _ => none
  | fuel + 1, s =>
      match popMax s.heap with
      | none => some s
      | some (curr, rest) =>
          let cands := candidate_neighbors height width curr.position s.finished
          let r := relax_loop cost end_pos curr.dist_from_src cands s.dist rest
          if r.2.2 then some ⟨r.1, r.2.1, s.finished⟩
          else
            dijkstra_loop height width cost end_pos fuel
              ⟨r.1, r.2.1, s.finished ++ [curr.position]⟩

/-- `day-15.rs::shortest_path_to_bottom_right`: distance of the source set
to 0 and its node pushed, then the main loop. -/
def shortest_path_to_bottom_right (height width : Nat)
    (cost : Position → Nat) (fuel : Nat) : Option DState :=
  let dist0 : Position → Nat :=
    Function.update (fun _ => usizeMAX) ((0 : Nat), (0 : Nat)) 0
  dijkstra_loop height width cost (height - 1, width - 1) fuel
    ⟨dist0, [⟨(0, 0), cost (0, 0), 0⟩], []⟩

/-! ## day-12.rs: cave path enumeration -/

/-- `day-12.rs::CaveType`. -/
inductive CaveType : Type where
  | Start
  | End
  | Small
  | Big
  deriving DecidableEq

/-- `Cave::get_cave_type` (cave ids are ASCII letters, so `Char.isUpper`
matches `char::is_uppercase`). -/
def get_cave_type (id : String) : CaveType :=
  if id = "start" then CaveType.Start
  else if id = "end" then CaveType.End
  else if id.toList.all Char.isUpper then CaveType.Big
  else CaveType.Small

/-- The connection lists built by `day-12.rs::parse_input`: for each input
line `a-b`, `b` is pushed onto `a`'s connections and `a` onto `b`'s, in line
order.  The `Rc<RefCell<Cave>>` graph is embedded as this adjacency
function (caves compare equal by id). -/
def build_connections (edges : List (String × String)) (id : String) :
    List String :=
  edges.foldr
    (fun e acc =>
      (if id = e.1 then [e.2] else []) ++ (if id = e.2 then [e.1] else []) ++ acc)
    []

/-- `day-12.rs::part_1::can_be_visited`. -/
def can_be_visited (cave : String) (visited : List String) : Bool :=
  if !(visited.contains cave) then true
  else if get_cave_type cave = CaveType.Big then true
  else false

/-- `day-12.rs::part_1::visit_cave`.  The recursion is gated by fuel (the
Rust recursion depth is unbounded); reaching an `End` cave records the
current path, otherwise each visitable connection is explored in order and
the produced paths are concatenated, exactly as the recursive calls append
to the shared `paths` vector. -/
def visit_cave (adj : String → List String) :
    Nat → String → List String → List String → List (List String)
  | fuel, cave, visited, curr_path =>
      if get_cave_type cave = CaveType.End then [curr_path ++ [cave]]
      else
        match fuel with
        | 0 => []
        | fuel + 1 =>
            let visited1 :=
              if !(visited.contains cave) then visited ++ [cave] else visited
            let curr_path1 := curr_path ++ [cave]
            ((adj cave).filter (fun c => can_be_visited c visited1)).foldr
              (fun c acc => visit_cave adj fuel c visited1 curr_path1 ++ acc) []

/-- `day-12.rs::part_1::get_cave_paths`. -/
def get_cave_paths (adj : String → List String) (fuel : Nat) :
    List (List String) :=
  visit_cave adj fuel "start" [] []

/-- `day-12.rs::part_1::count_paths`. -/
def count_paths (adj : String → List String) (fuel : Nat) : Nat :=
  (get_cave_paths adj fuel).length

/-- The update of `visited` performed on entering a cave. -/
def insert_visited (cave : String) (visited : List String) : List String :=
  if !(visited.contains cave) then visited ++ [cave] else visited

/-- The suffixes that `visit_cave` can still produce from a given cave and
visited list: stop at an `End` cave, otherwise take any connection that
`can_be_visited` allows after marking the current cave visited.  This is the
recursion structure of `part_1::visit_cave` as a relation. -/
inductive SuffixOK (adj : String → List String) :
    String → List String → List String → Prop where
  | stop (cave : String) (visited : List String) :
      get_cave_type cave = CaveType.End →
      SuffixOK adj cave visited [cave]
  | step (cave : String) (visited : List String) (c : String)
      (s : List String) :
      get_cave_type cave ≠ CaveType.End →
      c ∈ adj cave →
      can_be_visited c (insert_visited cave visited) = true →
      SuffixOK adj c (insert_visited cave visited) s →
      SuffixOK adj cave visited (cave :: s)

/-- The set of paths claim C4 describes: a path from `start` to `end`
(consecutive caves connected, `end` only as the final element), in which
`start` occurs only as the first element and each small cave occurs at most
once; big caves are unrestricted. -/
def ValidCavePath (adj : String → List String) (p : List String) : Prop :=
  ∃ t, p = "start" :: t ∧ t ≠ [] ∧
    List.Chain (fun a b => b ∈ adj a) "start" t ∧
    t.getLast? = some "end" ∧
    (∀ x ∈ t.dropLast, x ≠ "end") ∧
    "start" ∉ t ∧
    ∀ x, get_cave_type x = CaveType.Small → p.count x ≤ 1

/-- All cave ids mentioned by the connection list. -/
def caveList (edges : List (String × String)) : List String :=
  (edges.map Prod.fst ++ edges.map Prod.snd).dedup

/-- The cost written by `expand_map` for target coordinates `(r, c)`, given
the source cell cost `e`: the row and column tile indices are added and 9 is
subtracted when the sum exceeds 9. -/
def expanded_cost (map : RiskLevelMap) (e r c : Nat) : Nat :=
  if e + r / map.height + c / map.width > 9 then
    e + r / map.height + c / map.width - 9
  else e + r / map.height + c / map.width

/-- The grid of in-bounds positions. -/
def gridFinset (height width : Nat) : Finset Position :=
  Finset.range height ×ˢ Finset.range width

/-- Sum of the distance map over the grid. -/
def distSum (height width : Nat) (dist : Position → Nat) : Nat :=
  (gridFinset height width).sum dist

/-- The termination measure of the main loop. -/
def dijkstraMeasure (height width : Nat) (s : DState) : Nat :=
  2 * distSum height width s.dist + s.heap.length

/-- Number of non-big caves in `U` not yet visited: the potential that
bounds the remaining recursion depth of `visit_cave`. -/
def nonBigFree (U visited : List String) : Nat :=
  (U.filter (fun x => !decide (get_cave_type x = CaveType.Big) &&
    !decide (x ∈ visited))).length

/-- A position lies on the map. -/
def InBounds (height width : Nat) (p : Position) : Prop :=
  p.1 < height ∧ p.2 < width

/-- 4-neighbour adjacency of grid positions. -/
def AdjacentPos (p q : Position) : Prop :=
  (q.1 = p.1 ∧ (q.2 = p.2 + 1 ∨ p.2 = q.2 + 1)) ∨
  (q.2 = p.2 ∧ (q.1 = p.1 + 1 ∨ p.1 = q.1 + 1))

/-- Modelled from the claim: `Reach height width cost p c` holds when some
4-neighbour path over the map from the top-left cell to `p` has total
entered-cell cost `c` (the top-left cell's own cost excluded). -/
inductive Reach (height width : Nat) (cost : Position → Nat) :
    Position → Nat → Prop where
  | base : Reach height width cost (0, 0) 0
  | step {p : Position} {c : Nat} {q : Position} :
      Reach height width cost p c → AdjacentPos p q →
      InBounds height width q → Reach height width cost q (c + cost q)

/-- Loop invariant of `shortest_path_to_bottom_right`: the distance map is
an achieved over-approximation with `0` at the source, heap entries carry
achieved values no smaller than the current distances, finished positions
are settled (their distance is minimal over all reaching paths) and
relaxed into their neighbours, every reached unfinished position has a
fresh heap entry, and the end position is untouched while the loop still
runs.  The quantitative bounds tie every stored value to the number of
distinct finished positions, giving headroom below `usize::MAX`. -/
structure DInv (height width : Nat) (cost : Position → Nat)
    (end_pos : Position) (s : DState) : Prop where
  dist_start : s.dist (0, 0) = 0
  dist_le : ∀ p, s.dist p ≤ usizeMAX
  dist_reach : ∀ p, s.dist p ≠ usizeMAX → Reach height width cost p (s.dist p)
  dist_bound : ∀ p, s.dist p ≠ usizeMAX →
    s.dist p ≤ 9 * (s.finished.toFinset.card + 1)
  heap_inv : ∀ e ∈ s.heap, InBounds height width e.position ∧
    e.dist_from_src < usizeMAX ∧ s.dist e.position ≤ e.dist_from_src ∧
    Reach height width cost e.position e.dist_from_src ∧
    e.dist_from_src ≤ 9 * (s.finished.toFinset.card + 1)
  fin_inb : ∀ p ∈ s.finished, InBounds height width p
  fin_ne : ∀ p ∈ s.finished, s.dist p ≠ usizeMAX
  fin_edge : ∀ p ∈ s.finished, ∀ n, AdjacentPos p n →
    InBounds height width n → s.dist n ≤ s.dist p + cost n
  fin_min : ∀ p ∈ s.finished, ∀ c, Reach height width cost p c → s.dist p ≤ c
  fresh : ∀ p, p ∉ s.finished → s.dist p ≠ usizeMAX →
    ∃ e ∈ s.heap, e.position = p ∧ e.dist_from_src = s.dist p
  end_univ : end_pos ≠ (0, 0) → s.dist end_pos = usizeMAX ∧
    end_pos ∉ s.finished ∧ ∀ e ∈ s.heap, e.position ≠ end_pos

/-! ## Claim C7: example-based unit-test expectations -/

/-- Claim C7: the example-based expectations of the unit tests hold for the
pure functions they exercise: `bit_str_to_u64 "11001" = 25`,
`bit_str_to_u64 "" = 0`, `hex_str_to_u8_vec "D2FE2B" = [0xD2, 0xFE, 0x2B]`,
`count_increases [120, 115, 116, 100] = 1`, and the version sum of the
packet parsed from hex `"8A004A801A8002F478"` is 16. -/
theorem claim_C7_unit_test_expectations :
    bit_str_to_u64 "11001" = 25 ∧
    bit_str_to_u64 "" = 0 ∧
    hex_str_to_u8_vec "D2FE2B" = some [0xD2, 0xFE, 0x2B] ∧
    count_increases [120, 115, 116, 100] = 1 ∧
    ((hex_str_to_u8_vec "8A004A801A8002F478").bind (fun bytes =>
        (parse_transmission_packet bytes 100 0).map
          (fun r => add_all_packet_versions r.1))) = some 16 :=
  ⟨by decide, by decide, by decide, by decide, by decide⟩


/-! ## Claim C10: order of the comparison operands in `evaluate_packet` -/

/-- Claim C10: for an `Operator` packet with exactly two subpackets,
`evaluate_packet` with type id 5 (`GreaterThan`) returns 1 iff the value of
the first subpacket is strictly greater than the value of the second, with
type id 6 (`LessThan`) 1 iff it is strictly smaller, and with type id 7
(`EqualTo`) 1 iff the two values are equal: the two successive `nth(0)`
calls on the shared iterator yield the first and then the second subpacket,
in that order. -/
theorem claim_C10_comparison_operand_order (version : Nat)
    (a b : TransmissionPacket) (x y : Int)
    (ha : evaluate_packet a = some x) (hb : evaluate_packet b = some y) :
    evaluate_packet (.mk version 5 (.Operator [a, b])) =
      some (if x > y then 1 else 0) ∧
    evaluate_packet (.mk version 6 (.Operator [a, b])) =
      some (if x < y then 1 else 0) ∧
    evaluate_packet (.mk version 7 (.Operator [a, b])) =
      some (if x = y then 1 else 0) := by
  refine ⟨?_, ?_, ?_⟩ <;> simp [evaluate_packet, ha, hb]

/-- Witness for C10 at concrete operands (first subpacket value 7, second 3). -/
theorem claim_C10_witness :
    evaluate_packet (.mk 0 5 (.Operator
        [.mk 0 4 (.LiteralValue 7), .mk 0 4 (.LiteralValue 3)])) =
      some (if (7 : Int) > 3 then 1 else 0) ∧
    evaluate_packet (.mk 0 6 (.Operator
        [.mk 0 4 (.LiteralValue 7), .mk 0 4 (.LiteralValue 3)])) =
      some (if (7 : Int) < 3 then 1 else 0) ∧
    evaluate_packet (.mk 0 7 (.Operator
        [.mk 0 4 (.LiteralValue 7), .mk 0 4 (.LiteralValue 3)])) =
      some (if (7 : Int) = 3 then 1 else 0) :=
  claim_C10_comparison_operand_order 0 _ _ 7 3 rfl rfl

/-! ## Claim C1: error handling of `parse_input` -/

/-- Counterexample to claim C1: the contents `"abc\n123"` contain the
non-blank line `"abc"`, which fails to parse as `u32`; `parse_input` does not
abort but silently skips it and returns the remaining value `123`. -/
theorem claim_C1_counterexample :
    "abc" ∈ split_lines "abc\n123" ∧
    (rust_trim "abc").isEmpty = false ∧
    u32_from_str "abc" = none ∧
    parse_input u32_from_str "abc\n123" = [123] ∧
    main_day_01 (some "abc\n123") = Except.ok [123] := by
  refine ⟨by decide, by decide, by decide, by decide, ?_⟩
  show Except.ok (parse_input u32_from_str "abc\n123") = Except.ok [123]
  rw [show parse_input u32_from_str "abc\n123" = [123] from by decide]

/-- Claim C1 as amended: a missing input file still aborts `main`
immediately (the `?` on `read_to_string` propagates the error), but
`parse_input` recovers from unparseable lines instead of aborting: it
returns `Ok` of exactly the successfully parsed values of the non-blank
lines, silently dropping every line whose parse fails. -/
theorem claim_C1_amended {α : Type} (p : String → Option α)
    (contents : String) :
    main_day_01 none = Except.error () ∧
    parse_input p contents =
      ((split_lines contents).filter
        (fun line => !(rust_trim line).isEmpty)).filterMap p := by
  refine ⟨rfl, ?_⟩
  unfold parse_input
  induction split_lines contents with
  | nil => rfl
  | cons l ls ih =>
      by_cases h : (rust_trim l).isEmpty <;>
        simp [List.filterMap_cons, List.filter_cons, h, ih]

/-! ## Claim C9: `part_2::expand_map` -/

/-- `List.getD` at an in-bounds index is a member. -/
theorem getD_mem {α : Type} (l : List α) (i : Nat) (d : α)
    (h : i < l.length) : l.getD i d ∈ l := by
  rw [List.getD_eq_getElem?_getD, List.getElem?_eq_getElem h]
  exact List.getElem_mem _

/-- Indexing a list built by mapping over `List.range`. -/
theorem getD_map_range {α : Type} {n i : Nat} (f : Nat → α) (d : α)
    (h : i < n) : (List.map f (List.range n)).getD i d = f i := by
  rw [List.getD_eq_getElem?_getD, List.getElem?_map, List.getElem?_range h]
  rfl

/-- Claim C9: for a rectangular map whose edge costs lie in `1..=9`,
`expand_map` yields a map 5 times as high and as wide whose cell at `(r, c)`
carries cost `source cost + r / height + c / width`, reduced by 9 when the
sum exceeds 9, and that cost again lies in `1..=9`. -/
theorem claim_C9_expand_map (map : RiskLevelMap)
    (hh : map.nodes.length = map.height)
    (hw : ∀ row ∈ map.nodes, row.length = map.width)
    (hpos : 0 < map.height) (wpos : 0 < map.width)
    (hcost : ∀ row ∈ map.nodes, ∀ nd ∈ row,
      1 ≤ nd.edge_cost ∧ nd.edge_cost ≤ 9) :
    (expand_map map).height = 5 * map.height ∧
    (expand_map map).width = 5 * map.width ∧
    ∀ r c, r < 5 * map.height → c < 5 * map.width →
      ((expand_map map).nodes.getD r []).getD c NodeInfo.default =
        ⟨(r, c),
         expanded_cost map
           (((map.nodes.getD (r % map.height) []).getD (c % map.width)
              NodeInfo.default).edge_cost) r c,
         usizeMAX⟩ ∧
      1 ≤ expanded_cost map
            (((map.nodes.getD (r % map.height) []).getD (c % map.width)
               NodeInfo.default).edge_cost) r c ∧
      expanded_cost map
            (((map.nodes.getD (r % map.height) []).getD (c % map.width)
               NodeInfo.default).edge_cost) r c ≤ 9 := by
  have hrows : ∀ r c, r < 5 * map.height → c < 5 * map.width →
      ((expand_map map).nodes.getD r []).getD c NodeInfo.default =
        ⟨(r, c),
         expanded_cost map
           (((map.nodes.getD (r % map.height) []).getD (c % map.width)
              NodeInfo.default).edge_cost) r c,
         usizeMAX⟩ := by
    intro r c hr hc
    show ((RiskLevelMap.new _).nodes.getD r []).getD c NodeInfo.default = _
    rw [show ∀ l, (RiskLevelMap.new l).nodes = l from fun _ => rfl]
    rw [show (5 : Nat) * map.height = EXPANSION_FACTOR * map.height from rfl]
      at hr
    rw [show (5 : Nat) * map.width = EXPANSION_FACTOR * map.width from rfl]
      at hc
    rw [getD_map_range _ _ hr, getD_map_range _ _ hc]
    rfl
  have hE : EXPANSION_FACTOR = 5 := rfl
  refine ⟨?_, ?_, ?_⟩
  · show (List.map _ (List.range (EXPANSION_FACTOR * map.height))).length =
      5 * map.height
    rw [List.length_map, List.length_range, hE]
  · have h0 : 0 < EXPANSION_FACTOR * map.height := by rw [hE]; omega
    show ((List.map _ (List.range (EXPANSION_FACTOR * map.height))).headD
      []).length = 5 * map.width
    rw [show ∀ (l : List (List NodeInfo)), l.headD [] = l.getD 0 [] from
      fun l => by cases l <;> rfl]
    rw [getD_map_range _ _ h0, List.length_map, List.length_range, hE]
  · intro r c hr hc
    refine ⟨hrows r c hr hc, ?_, ?_⟩ <;>
    · have hsrcrow : r % map.height < map.nodes.length := by
        rw [hh]; exact Nat.mod_lt _ hpos
      have hrow_mem : map.nodes.getD (r % map.height) [] ∈ map.nodes :=
        getD_mem map.nodes (r % map.height) [] hsrcrow
      have hsrccol : c % map.width <
          (map.nodes.getD (r % map.height) []).length := by
        rw [hw _ hrow_mem]; exact Nat.mod_lt _ wpos
      have hcb := hcost _ hrow_mem _
        (getD_mem (map.nodes.getD (r % map.height) []) (c % map.width)
          NodeInfo.default hsrccol)
      have hrq : r / map.height < 5 := by
        rw [Nat.div_lt_iff_lt_mul hpos]; omega
      have hcq : c / map.width < 5 := by
        rw [Nat.div_lt_iff_lt_mul wpos]; omega
      unfold expanded_cost
      generalize r / map.height = vj at hrq ⊢
      generalize c / map.width = vk at hcq ⊢
      split <;> omega

/-- Witness for C9 on the one-cell map of cost 8, checked at target cell
(4, 3): its cost is 8 + 4 + 3 - 9 = 6. -/
theorem claim_C9_witness :
    (expand_map (RiskLevelMap.new [[⟨(0, 0), 8, usizeMAX⟩]])).height =
      5 * (RiskLevelMap.new [[⟨(0, 0), 8, usizeMAX⟩]]).height ∧
    ((expand_map (RiskLevelMap.new [[⟨(0, 0), 8, usizeMAX⟩]])).nodes.getD 4
        []).getD 3 NodeInfo.default =
      ⟨(4, 3),
       expanded_cost (RiskLevelMap.new [[⟨(0, 0), 8, usizeMAX⟩]])
         ((((RiskLevelMap.new [[⟨(0, 0), 8, usizeMAX⟩]]).nodes.getD
              (4 % (RiskLevelMap.new [[⟨(0, 0), 8, usizeMAX⟩]]).height)
              []).getD
             (3 % (RiskLevelMap.new [[⟨(0, 0), 8, usizeMAX⟩]]).width)
             NodeInfo.default).edge_cost)
         4 3,
       usizeMAX⟩ :=
  ⟨(claim_C9_expand_map (RiskLevelMap.new [[⟨(0, 0), 8, usizeMAX⟩]])
      (by decide) (by decide) (by decide) (by decide) (by decide)).1,
   ((claim_C9_expand_map (RiskLevelMap.new [[⟨(0, 0), 8, usizeMAX⟩]])
      (by decide) (by decide) (by decide) (by decide) (by decide)).2.2 4 3
      (by decide) (by decide)).1⟩

/-! ## Correctness of `extract_bits` (claims C5 and C8) -/

theorem lor_eq_add {n a b : Nat} (ha : a % 2 ^ n = 0) (hb : b < 2 ^ n) :
    a ||| b = a + b := by
  apply Nat.eq_of_testBit_eq
  intro i
  rw [Nat.testBit_or]
  rcases lt_or_ge i n with hi | hi
  · have haf : a.testBit i = false := by
      have h1 := Nat.testBit_mod_two_pow a n i
      rw [ha, Nat.zero_testBit] at h1
      cases hc : a.testBit i with
      | false => rfl
      | true => simp [hc, hi] at h1
    have hm : (a + b) % 2 ^ n = b % 2 ^ n := by
      rw [Nat.add_mod, ha, Nat.zero_add, Nat.mod_mod_of_dvd _ (dvd_refl _)]
    have h2 : (a + b).testBit i = b.testBit i := by
      have e1 := Nat.testBit_mod_two_pow (a + b) n i
      have e2 := Nat.testBit_mod_two_pow b n i
      rw [hm] at e1
      rw [e2] at e1
      simpa [hi] using e1.symm
    rw [h2, haf, Bool.false_or]
  · have hbf : b.testBit i = false :=
      Nat.testBit_lt_two_pow (lt_of_lt_of_le hb (Nat.pow_le_pow_right (by omega) hi))
    have hdiv : (a + b) / 2 ^ n = a / 2 ^ n := by
      obtain ⟨k, hk⟩ := Nat.dvd_of_mod_eq_zero ha
      subst hk
      rw [Nat.mul_add_div (Nat.pos_pow_of_pos n (by omega)),
        Nat.div_eq_of_lt hb, Nat.mul_div_cancel_left _ (Nat.pos_pow_of_pos n (by omega))]
      omega
    have h3 : ∀ x : Nat, x.testBit i = (x / 2 ^ n).testBit (i - n) := by
      intro x
      rw [← Nat.shiftRight_eq_div_pow, Nat.testBit_shiftRight]
      congr 1
      omega
    rw [h3 (a + b), h3 a, hdiv, hbf, Bool.or_false]

theorem extract_bits_from_byte_eq (b off cnt : Nat) (hb : b < 256)
    (hoff : off < 8) (hcnt : cnt ≤ 8 - off) :
    extract_bits_from_byte b off cnt = b % 2 ^ (8 - off) / 2 ^ (8 - off - cnt) := by
  unfold extract_bits_from_byte
  have hmod : off % 8 = off := Nat.mod_eq_of_lt hoff
  rw [hmod]
  have hsub : 8 - cnt - off = 8 - off - cnt := by omega
  by_cases h0 : off > 0
  · simp only [h0, if_true]
    rw [Nat.shiftLeft_eq, Nat.one_mul, Nat.and_pow_two_sub_one_eq_mod,
      Nat.shiftRight_eq_div_pow, hsub]
  · simp only [h0, if_false]
    have : off = 0 := by omega
    subst this
    rw [Nat.shiftRight_eq_div_pow]
    have : b % 2 ^ (8 - 0) = b := Nat.mod_eq_of_lt (by norm_num; omega)
    rw [this, hsub]

theorem bitsValue_zero (bytes : List Nat) (s : Nat) : bitsValue bytes s 0 = 0 := rfl

theorem bitsValue_succ (bytes : List Nat) (s c : Nat) :
    bitsValue bytes s (c + 1) = 2 * bitsValue bytes s c + bitAt bytes (s + c) := by
  unfold bitsValue
  rw [List.range_succ, List.foldl_append]
  rfl

theorem bitsValue_split (bytes : List Nat) (s a b : Nat) :
    bitsValue bytes s (a + b) =
      bitsValue bytes s a * 2 ^ b + bitsValue bytes (s + a) b := by
  induction b with
  | zero => simp [bitsValue_zero]
  | succ b ih =>
      rw [show a + (b + 1) = (a + b) + 1 from rfl, bitsValue_succ, ih,
        bitsValue_succ, show s + a + b = s + (a + b) from by omega]
      ring

theorem bitAt_lt_two (bytes : List Nat) (i : Nat) : bitAt bytes i < 2 := by
  unfold bitAt
  rw [Nat.and_one_is_mod]
  exact Nat.mod_lt _ (by omega)

theorem bitsValue_lt (bytes : List Nat) (s c : Nat) :
    bitsValue bytes s c < 2 ^ c := by
  induction c with
  | zero => rw [bitsValue_zero]; norm_num
  | succ c ih =>
      rw [bitsValue_succ]
      have := bitAt_lt_two bytes (s + c)
      have h2 : 2 ^ (c + 1) = 2 * 2 ^ c := by ring
      omega

theorem bitsValue_in_byte (bytes : List Nat) (i off cnt : Nat)
    (hb : ∀ x ∈ bytes, x < 256) (hoff : off < 8) (hcnt : off + cnt ≤ 8) :
    bitsValue bytes (8 * i + off) cnt =
      bytes.getD i 0 % 2 ^ (8 - off) / 2 ^ (8 - off - cnt) := by
  have hbyte : bytes.getD i 0 < 256 := by
    rcases lt_or_ge i bytes.length with h | h
    · exact hb _ (by
        rw [List.getD_eq_getElem?_getD, List.getElem?_eq_getElem h]
        exact List.getElem_mem _)
    · rw [List.getD_eq_getElem?_getD, List.getElem?_eq_none (by omega)]
      norm_num
  induction cnt with
  | zero =>
      rw [bitsValue_zero]
      rw [Nat.div_eq_of_lt]
      exact lt_of_lt_of_le (Nat.mod_lt _ (Nat.pos_pow_of_pos _ (by omega)))
        (le_refl _)
  | succ c ih =>
      rw [bitsValue_succ, ih (by omega)]
      have hc8 : off + c < 8 := by omega
      have hbit : bitAt bytes (8 * i + off + c) =
          bytes.getD i 0 / 2 ^ (7 - off - c) % 2 := by
        unfold bitAt
        have hdiv : (8 * i + off + c) / 8 = i := by omega
        have hmod : (8 * i + off + c) % 8 = off + c := by omega
        rw [hdiv, hmod, Nat.shiftRight_eq_div_pow, Nat.and_one_is_mod,
          show (7 : Nat) - (off + c) = 7 - off - c from by omega]
      rw [hbit]
      -- m := b % 2^(8-off); goal: 2 * (m / 2^(8-off-c... )) ...
      have hmm : bytes.getD i 0 / 2 ^ (7 - off - c) % 2 =
          bytes.getD i 0 % 2 ^ (8 - off) / 2 ^ (7 - off - c) % 2 := by
        have h1 : (7 : Nat) - off - c < 8 - off := by omega
        rw [show (2 : Nat) ^ (8 - off) =
          2 ^ (7 - off - c) * 2 ^ (8 - off - (7 - off - c)) from by
            rw [← pow_add]; congr 1; omega]
        rw [Nat.mod_mul_right_div_self]
        rw [Nat.mod_mod_of_dvd]
        exact Dvd.intro_left (2 ^ (8 - off - (7 - off - c) - 1)) (by
          rw [← pow_succ]
          congr 1
          omega)
      rw [hmm]
      have e1 : 8 - off - c = (7 - off - c) + 1 := by omega
      have e2 : 8 - off - (c + 1) = 7 - off - c := by omega
      rw [e1, e2]
      generalize bytes.getD i 0 % 2 ^ (8 - off) = m
      rw [pow_succ, ← Nat.div_div_eq_div_mul]
      omega

theorem extract_bits_loop_eq (bytes : List Nat)
    (hb : ∀ x ∈ bytes, x < 256) :
    ∀ fuel rem bi off acc, off < 8 → rem ≤ fuel →
      8 * bi + off + rem ≤ 8 * bytes.length → acc % 2 ^ rem = 0 →
      extract_bits_loop bytes fuel bi rem off acc =
        some (acc + bitsValue bytes (8 * bi + off) rem) := by
  intro fuel
  induction fuel with
  | zero =>
      intro rem bi off acc _ hle _ _
      have : rem = 0 := by omega
      subst this
      simp [extract_bits_loop, bitsValue_zero]
  | succ fuel ih =>
      intro rem bi off acc hoff hle hbound hacc
      by_cases h0 : rem = 0
      · subst h0
        simp [extract_bits_loop, bitsValue_zero]
      · have hbi : bi < bytes.length := by omega
        have hget : bytes[bi]? = some (bytes.getD bi 0) := by
          rw [List.getD_eq_getElem?_getD, List.getElem?_eq_getElem hbi]
          rfl
        have hbyte : bytes.getD bi 0 < 256 := hb _ (by
          rw [List.getD_eq_getElem?_getD, List.getElem?_eq_getElem hbi]
          exact List.getElem_mem _)
        have hchunk1 : 1 ≤ min rem (8 - off) := by omega
        have hchunkle : min rem (8 - off) ≤ 8 - off := by omega
        have hbits : extract_bits_from_byte (bytes.getD bi 0) off
            (min rem (8 - off)) =
            bitsValue bytes (8 * bi + off) (min rem (8 - off)) := by
          rw [extract_bits_from_byte_eq _ _ _ hbyte hoff hchunkle,
            bitsValue_in_byte bytes bi off _ hb hoff (by omega)]
        have hstep : extract_bits_loop bytes (fuel + 1) bi rem off acc =
            extract_bits_loop bytes fuel (bi + 1) (rem - min rem (8 - off)) 0
              (acc ||| (extract_bits_from_byte (bytes.getD bi 0) off
                (min rem (8 - off)) <<< (rem - min rem (8 - off)))) := by
          rw [extract_bits_loop]
          rw [if_neg h0, hget]
        rw [hstep, hbits]
        have hbv_lt : bitsValue bytes (8 * bi + off) (min rem (8 - off)) <
            2 ^ min rem (8 - off) := bitsValue_lt bytes _ _
        have hshift_lt : bitsValue bytes (8 * bi + off) (min rem (8 - off)) <<<
            (rem - min rem (8 - off)) < 2 ^ rem := by
          rw [Nat.shiftLeft_eq]
          calc bitsValue bytes (8 * bi + off) (min rem (8 - off)) *
                2 ^ (rem - min rem (8 - off))
              < 2 ^ min rem (8 - off) * 2 ^ (rem - min rem (8 - off)) :=
                (Nat.mul_lt_mul_right (Nat.pos_pow_of_pos _ (by omega))).mpr
                  hbv_lt
            _ = 2 ^ rem := by rw [← pow_add]; congr 1; omega
        rw [lor_eq_add hacc hshift_lt, Nat.shiftLeft_eq]
        have hdvd : (2 : Nat) ^ (rem - min rem (8 - off)) ∣ acc :=
          dvd_trans (pow_dvd_pow 2 (by omega)) (Nat.dvd_of_mod_eq_zero hacc)
        have hacc2 : (acc + bitsValue bytes (8 * bi + off) (min rem (8 - off))
            * 2 ^ (rem - min rem (8 - off))) % 2 ^ (rem - min rem (8 - off))
            = 0 := by
          rw [Nat.add_mul_mod_self_right]
          exact Nat.dvd_iff_mod_eq_zero.mp hdvd
        rw [ih (rem - min rem (8 - off)) (bi + 1) 0 _ (by omega) (by omega)
          (by omega) hacc2]
        congr 1
        rcases le_total rem (8 - off) with hc | hc
        · have hmin : min rem (8 - off) = rem := by omega
          rw [hmin, Nat.sub_self, bitsValue_zero, pow_zero]
          ring
        · have hmin : min rem (8 - off) = 8 - off := by omega
          rw [hmin]
          have hsplitn : rem = (8 - off) + (rem - (8 - off)) := by omega
          conv_rhs => rw [hsplitn]
          rw [bitsValue_split]
          have hpos : 8 * bi + off + (8 - off) = 8 * (bi + 1) + 0 := by omega
          rw [hpos]
          ring

theorem extract_bits_loop_total (bytes : List Nat) :
    ∀ fuel rem bi off acc, off < 8 → rem ≤ fuel →
      8 * bi + off + rem ≤ 8 * bytes.length →
      ∃ v, extract_bits_loop bytes fuel bi rem off acc = some v := by
  intro fuel
  induction fuel with
  | zero =>
      intro rem bi off acc _ hle _
      have : rem = 0 := by omega
      subst this
      exact ⟨acc, by simp [extract_bits_loop]⟩
  | succ fuel ih =>
      intro rem bi off acc hoff hle hbound
      by_cases h0 : rem = 0
      · subst h0
        exact ⟨acc, by simp [extract_bits_loop]⟩
      · have hbi : bi < bytes.length := by omega
        have hget : bytes[bi]? = some (bytes.getD bi 0) := by
          rw [List.getD_eq_getElem?_getD, List.getElem?_eq_getElem hbi]
          rfl
        have hstep : extract_bits_loop bytes (fuel + 1) bi rem off acc =
            extract_bits_loop bytes fuel (bi + 1) (rem - min rem (8 - off)) 0
              (acc ||| (extract_bits_from_byte (bytes.getD bi 0) off
                (min rem (8 - off)) <<< (rem - min rem (8 - off)))) := by
          rw [extract_bits_loop]
          rw [if_neg h0, hget]
        rw [hstep]
        exact ih _ _ _ _ (by omega) (by omega) (by omega)

/-- In-range `extract_bits` returns `Ok` of the bit run's value. -/
theorem extract_bits_ok_eq (bytes : List Nat) (s c : Nat)
    (hbytes : ∀ x ∈ bytes, x < 256) (hc : c ≤ 64)
    (hs : s < 8 * bytes.length) (hsc : s + c ≤ 8 * bytes.length) :
    extract_bits bytes s c = some (Except.ok (bitsValue bytes s c)) := by
  unfold extract_bits
  rw [if_neg (by omega), if_neg (by omega), if_neg (by omega)]
  rw [extract_bits_loop_eq bytes hbytes c c (s / 8) (s % 8) 0
    (Nat.mod_lt _ (by omega)) (le_refl c) (by omega) (Nat.zero_mod _)]
  rw [show 8 * (s / 8) + s % 8 = s from by omega, Nat.zero_add]
  rfl

/-- Claim C5: for in-range arguments (`bit_count ≤ 64`,
`start_bit < 8 * len`, `start_bit + bit_count ≤ 8 * len`) on a genuine byte
slice, `extract_bits` returns `Ok` of the unsigned integer whose big-endian
binary representation is the requested run of bits, the bytes being read
most-significant-bit first. -/
theorem claim_C5_extract_bits (bytes : List Nat) (s c : Nat)
    (hbytes : ∀ x ∈ bytes, x < 256) (hc : c ≤ 64)
    (hs : s < 8 * bytes.length) (hsc : s + c ≤ 8 * bytes.length) :
    extract_bits bytes s c = some (Except.ok (bitsValue bytes s c)) :=
  extract_bits_ok_eq bytes s c hbytes hc hs hsc

/-- In-range `extract_bits(..).unwrap()` yields the bit run's value. -/
theorem extract_bits_unwrap_eq (bytes : List Nat) (s c : Nat)
    (hbytes : ∀ x ∈ bytes, x < 256) (hc : c ≤ 64)
    (hsc : s + c ≤ 8 * bytes.length) (hcpos : 0 < c) :
    extract_bits_unwrap bytes s c = some (bitsValue bytes s c) := by
  unfold extract_bits_unwrap
  rw [extract_bits_ok_eq bytes s c hbytes hc (by omega) hsc]

/-- Claim C8: `extract_bits` returns each documented error exactly under its
documented condition, checked in the order of the code, returns `Ok`
otherwise, and never panics. -/
theorem claim_C8_extract_bits_errors (bytes : List Nat) (s c : Nat) :
    (extract_bits bytes s c = some (Except.error "invalid start_bit") ↔
      8 * bytes.length ≤ s) ∧
    (extract_bits bytes s c =
        some (Except.error "max value for bit_count is 64") ↔
      s < 8 * bytes.length ∧ 64 < c) ∧
    (extract_bits bytes s c =
        some (Except.error "not enough bits to extract") ↔
      s < 8 * bytes.length ∧ c ≤ 64 ∧ 8 * bytes.length < s + c) ∧
    ((∃ v, extract_bits bytes s c = some (Except.ok v)) ↔
      s < 8 * bytes.length ∧ c ≤ 64 ∧ s + c ≤ 8 * bytes.length) ∧
    extract_bits bytes s c ≠ none := by
  rcases le_or_lt (8 * bytes.length) s with h1 | h1
  · have hE : extract_bits bytes s c =
        some (Except.error "invalid start_bit") := by
      unfold extract_bits
      rw [if_pos (by omega)]
    rw [hE]
    refine ⟨?_, ?_, ?_, ?_, ?_⟩ <;> simp [h1]
  · rcases le_or_lt c 64 with h2 | h2
    · rcases le_or_lt (s + c) (8 * bytes.length) with h3 | h3
      · obtain ⟨v, hv⟩ := extract_bits_loop_total bytes c c (s / 8) (s % 8) 0
          (Nat.mod_lt _ (by omega)) (le_refl c) (by omega)
        have hE : extract_bits bytes s c = some (Except.ok v) := by
          unfold extract_bits
          rw [if_neg (by omega), if_neg (by omega), if_neg (by omega), hv]
          rfl
        rw [hE]
        refine ⟨?_, ?_, ?_, ?_, ?_⟩ <;> simp [h1, h2, h3]
      · have hE : extract_bits bytes s c =
            some (Except.error "not enough bits to extract") := by
          unfold extract_bits
          rw [if_neg (by omega), if_neg (by omega), if_pos (by omega)]
        rw [hE]
        refine ⟨?_, ?_, ?_, ?_, ?_⟩ <;> simp [h1, h2, h3]
    · have hE : extract_bits bytes s c =
          some (Except.error "max value for bit_count is 64") := by
        unfold extract_bits
        rw [if_neg (by omega), if_pos (by omega)]
      rw [hE]
      refine ⟨?_, ?_, ?_, ?_, ?_⟩ <;> simp [h1, h2]

/-- Witness for C5: the 18-bit extraction at bit 3 of `[0xD2, 0xFE, 0x28]`
(one of the repository's own unit-test cases). -/
theorem claim_C5_witness :
    extract_bits [0xD2, 0xFE, 0x28] 3 18 =
      some (Except.ok (bitsValue [0xD2, 0xFE, 0x28] 3 18)) :=
  claim_C5_extract_bits [0xD2, 0xFE, 0x28] 3 18 (by decide) (by decide)
    (by decide) (by decide)

/-- Witness for C8: the in-range case produces `Ok` on a concrete slice. -/
theorem claim_C8_witness :
    (∃ v, extract_bits [0xD2, 0xFE, 0x28] 0 24 = some (Except.ok v)) ∧
    extract_bits [0xD2, 0xFE, 0x28] 24 1 =
      some (Except.error "invalid start_bit") :=
  ⟨((claim_C8_extract_bits_errors [0xD2, 0xFE, 0x28] 0 24).2.2.2.1).mpr
      (by decide),
   ((claim_C8_extract_bits_errors [0xD2, 0xFE, 0x28] 24 1).1).mpr (by decide)⟩

/-! ## Parser completeness for the BITS format (claims C3 and C6) -/

/-- A literal payload occupies at least 5 bits. -/
theorem LiteralEnc.five_le {bytes : List Nat} {pos acc v n : Nat}
    (h : LiteralEnc bytes pos acc v n) : 5 ≤ n := by
  cases h <;> omega

/-- Every encoded packet occupies at least 6 bits. -/
theorem EncodesAt.six_le {bytes : List Nat} {s : Nat}
    {p : TransmissionPacket} {n : Nat} (h : EncodesAt bytes s p n) :
    6 ≤ n := by
  cases h with
  | literal _ _ _ _ _ hl => have := hl.five_le; omega
  | opLen => omega
  | opCnt => omega

/-- The literal-group loop follows a `LiteralEnc` derivation. -/
theorem parse_literal_loop_correct {bytes : List Nat}
    (hbytes : ∀ x ∈ bytes, x < 256) {pos acc v n : Nat}
    (h : LiteralEnc bytes pos acc v n) :
    ∀ br f, n ≤ 5 * f →
      parse_literal_loop bytes f pos acc br = some (v, br + n) := by
  induction h with
  | last pos acc hb hbit =>
      intro br f hf
      obtain ⟨f1, rfl⟩ : ∃ f1, f = f1 + 1 := ⟨f - 1, by omega⟩
      simp only [parse_literal_loop,
        extract_bits_unwrap_eq bytes pos 5 hbytes (by omega) hb (by omega),
        hbit]
      rw [if_neg (by decide)]
  | more pos acc v n hb hbit _ ih =>
      intro br f hf
      obtain ⟨f1, rfl⟩ : ∃ f1, f = f1 + 1 := ⟨f - 1, by omega⟩
      simp only [parse_literal_loop,
        extract_bits_unwrap_eq bytes pos 5 hbytes (by omega) hb (by omega),
        hbit]
      rw [if_pos trivial, show br + (n + 5) = (br + 5) + n from by omega]
      exact ih (br + 5) f1 (by omega)

/-- The mode-0 loop parses exactly the packets of an `EncodesListAt`
derivation whose total bit count matches the declared length. -/
theorem parse_subs_len_loop (bytes : List Nat) (M : Nat)
    (IH : ∀ k s p, k ≤ M → EncodesAt bytes s p k → ∀ f, k ≤ f →
      parse_transmission_packet bytes f s = some (p, k)) :
    ∀ (subs : List TransmissionPacket) (m : Nat), m ≤ M →
      ∀ base read acc f, EncodesListAt bytes (base + read) subs m →
        m + 1 ≤ f →
        parse_subpackets_by_length bytes f base (read + m) read acc =
          some (acc ++ subs, read + m) := by
  intro subs
  induction subs with
  | nil =>
      intro m _ base read acc f h hf
      cases h
      obtain ⟨f1, rfl⟩ : ∃ f1, f = f1 + 1 := ⟨f - 1, by omega⟩
      rw [parse_subpackets_by_length, if_neg (by omega)]
      simp
  | cons p ps ihl =>
      intro m hM base read acc f h hf
      cases h with
      | cons _ _ n _ m2 hp hps =>
          have hn6 : 6 ≤ n := hp.six_le
          obtain ⟨f1, rfl⟩ : ∃ f1, f = f1 + 1 := ⟨f - 1, by omega⟩
          rw [parse_subpackets_by_length, if_pos (by omega)]
          rw [IH n (base + read) p (by omega) hp f1 (by omega)]
          simp only [Option.bind_eq_bind, Option.some_bind]
          have hps2 : EncodesListAt bytes (base + (read + n)) ps m2 := by
            rw [show base + (read + n) = base + read + n from by omega]
            exact hps
          have := ihl m2 (by omega) base (read + n) (acc ++ [p]) f1 hps2
            (by omega)
          rw [show read + (n + m2) = (read + n) + m2 from by omega]
          rw [this]
          simp

/-- The mode-1 loop parses exactly the packets of an `EncodesListAt`
derivation whose length matches the declared count. -/
theorem parse_subs_cnt_loop (bytes : List Nat) (M : Nat)
    (IH : ∀ k s p, k ≤ M → EncodesAt bytes s p k → ∀ f, k ≤ f →
      parse_transmission_packet bytes f s = some (p, k)) :
    ∀ (subs : List TransmissionPacket) (m : Nat), m ≤ M →
      ∀ base cnt k read acc f, EncodesListAt bytes (base + read) subs m →
        cnt = k + subs.length → m + 1 ≤ f →
        parse_subpackets_by_count bytes f base cnt k read acc =
          some (acc ++ subs, read + m) := by
  intro subs
  induction subs with
  | nil =>
      intro m _ base cnt k read acc f h hcnt hf
      cases h
      obtain ⟨f1, rfl⟩ : ∃ f1, f = f1 + 1 := ⟨f - 1, by omega⟩
      rw [parse_subpackets_by_count, if_neg (by simp at hcnt; omega)]
      simp
  | cons p ps ihl =>
      intro m hM base cnt k read acc f h hcnt hf
      cases h with
      | cons _ _ n _ m2 hp hps =>
          have hn6 : 6 ≤ n := hp.six_le
          obtain ⟨f1, rfl⟩ : ∃ f1, f = f1 + 1 := ⟨f - 1, by omega⟩
          rw [parse_subpackets_by_count,
            if_pos (by simp [List.length_cons] at hcnt; omega)]
          rw [IH n (base + read) p (by omega) hp f1 (by omega)]
          simp only [Option.bind_eq_bind, Option.some_bind]
          have hps2 : EncodesListAt bytes (base + (read + n)) ps m2 := by
            rw [show base + (read + n) = base + read + n from by omega]
            exact hps
          have := ihl m2 (by omega) base cnt (k + 1) (read + n) (acc ++ [p])
            f1 hps2 (by simp [List.length_cons] at hcnt; omega) (by omega)
          rw [show read + (n + m2) = (read + n) + m2 from by omega]
          rw [this]
          simp

/-- `parse_transmission_packet` follows every `EncodesAt` derivation, with
any fuel of at least the encoded bit count. -/
theorem parse_encodes_at (bytes : List Nat)
    (hbytes : ∀ x ∈ bytes, x < 256) :
    ∀ n s p, EncodesAt bytes s p n → ∀ f, n ≤ f →
      parse_transmission_packet bytes f s = some (p, n) := by
  intro n
  induction n using Nat.strong_induction_on with
  | _ n IHn =>
    intro s p h f hf
    have hn6 : 6 ≤ n := h.six_le
    obtain ⟨f1, rfl⟩ : ∃ f1, f = f1 + 1 := ⟨f - 1, by omega⟩
    cases h with
    | literal _ _ ln hb ht hl =>
        have hln : 5 ≤ ln := hl.five_le
        rw [parse_transmission_packet,
          extract_bits_unwrap_eq bytes s 3 hbytes (by omega) (by omega)
            (by omega),
          extract_bits_unwrap_eq bytes (s + 3) 3 hbytes (by omega)
            (by omega) (by omega)]
        simp only [Option.bind_eq_bind, Option.some_bind, ht]
        rw [if_pos trivial]
        unfold parse_literal_value_payload
        rw [parse_literal_loop_correct hbytes hl 0 f1 (by omega)]
        simp only [Option.bind_eq_bind, Option.some_bind]
        rw [Nat.zero_add]
        rfl
    | opLen _ subs hb ht hmode hsubs =>
        obtain ⟨f2, rfl⟩ : ∃ f2, f1 = f2 + 1 := ⟨f1 - 1, by omega⟩
        rw [parse_transmission_packet,
          extract_bits_unwrap_eq bytes s 3 hbytes (by omega) (by omega)
            (by omega),
          extract_bits_unwrap_eq bytes (s + 3) 3 hbytes (by omega)
            (by omega) (by omega)]
        simp only [Option.bind_eq_bind, Option.some_bind]
        rw [if_neg ht]
        rw [parse_operator_payload,
          extract_bits_unwrap_eq bytes (s + 6) 1 hbytes (by omega)
            (by omega) (by omega)]
        simp only [Option.bind_eq_bind, Option.some_bind, hmode]
        rw [if_pos trivial]
        rw [extract_bits_unwrap_eq bytes (s + 6 + 1) 15 hbytes (by omega)
          (by omega) (by omega)]
        simp only [Option.bind_eq_bind, Option.some_bind]
        have hloop := parse_subs_len_loop bytes
          (bitsValue bytes (s + 7) 15)
          (fun k s2 p2 hk henc f3 hf3 => IHn k (by omega) s2 p2 henc f3 hf3)
          subs (bitsValue bytes (s + 7) 15) (le_refl _) (s + 6 + 16) 0 [] f2
          (by rw [show s + 6 + 16 + 0 = s + 22 from by omega]
              rw [show s + 6 + 1 = s + 7 from by omega]
              exact hsubs)
          (by omega)
        rw [show s + 6 + 1 = s + 7 from by omega] at hloop ⊢
        rw [show (0 : Nat) + bitsValue bytes (s + 7) 15 =
          bitsValue bytes (s + 7) 15 from by omega] at hloop
        rw [hloop]
        simp only [Option.bind_eq_bind, Option.some_bind, List.nil_append,
          Option.pure_def, Option.some.injEq, Prod.mk.injEq]
        exact ⟨trivial, by omega⟩
    | opCnt _ m subs hb ht hmode hlen hsubs =>
        obtain ⟨f2, rfl⟩ : ∃ f2, f1 = f2 + 1 := ⟨f1 - 1, by omega⟩
        rw [parse_transmission_packet,
          extract_bits_unwrap_eq bytes s 3 hbytes (by omega) (by omega)
            (by omega),
          extract_bits_unwrap_eq bytes (s + 3) 3 hbytes (by omega)
            (by omega) (by omega)]
        simp only [Option.bind_eq_bind, Option.some_bind]
        rw [if_neg ht]
        rw [parse_operator_payload,
          extract_bits_unwrap_eq bytes (s + 6) 1 hbytes (by omega)
            (by omega) (by omega)]
        simp only [Option.bind_eq_bind, Option.some_bind, hmode]
        rw [if_neg (by decide)]
        rw [extract_bits_unwrap_eq bytes (s + 6 + 1) 11 hbytes (by omega)
          (by omega) (by omega)]
        simp only [Option.bind_eq_bind, Option.some_bind]
        have hloop := parse_subs_cnt_loop bytes m
          (fun k s2 p2 hk henc f3 hf3 => IHn k (by omega) s2 p2 henc f3 hf3)
          subs m (le_refl _) (s + 6 + 12) (bitsValue bytes (s + 6 + 1) 11)
          0 0 [] f2
          (by rw [show s + 6 + 12 + 0 = s + 18 from by omega]
              exact hsubs)
          (by rw [show s + 6 + 1 = s + 7 from by omega]; omega)
          (by omega)
        rw [hloop]
        simp only [Option.bind_eq_bind, Option.some_bind, List.nil_append,
          Option.pure_def, Option.some.injEq, Prod.mk.injEq]
        exact ⟨trivial, by omega⟩

/-! ## Claim C3: the transmission parser follows the BITS format -/

/-- Claim C3 (amended: the literal value is accumulated in a `u64` and so is
reduced modulo `2 ^ 64`): for every byte sequence encoding a well-formed
BITS transmission, `parse_transmission_packet` called at bit 0 returns the
encoded packet tree together with the exact number of bits consumed, for
any fuel of at least that bit count. -/
theorem claim_C3_parser_follows_format (bytes : List Nat)
    (p : TransmissionPacket) (n : Nat) (hbytes : ∀ x ∈ bytes, x < 256)
    (h : EncodesAt bytes 0 p n) (f : Nat) (hf : n ≤ f) :
    parse_transmission_packet bytes f 0 = some (p, n) :=
  parse_encodes_at bytes hbytes n 0 p h f hf

/-- Counterexample to claim C3 as stated: a literal packet of seventeen
5-bit groups whose concatenated value is `2 ^ 64`.  The spec-side reading
(`literal_value_concat`, pure concatenation of the low 4 bits) gives
`2 ^ 64`, but the parser's `u64` accumulator wraps and the returned payload
is `LiteralValue 0`. -/
theorem claim_C3_counterexample :
    literal_value_concat [18, 48, 132, 33, 8, 66, 16, 132, 33, 8, 64, 0]
      30 6 0 = some (2 ^ 64, 85) ∧
    parse_transmission_packet [18, 48, 132, 33, 8, 66, 16, 132, 33, 8, 64, 0]
      100 0 = some (.mk 0 4 (.LiteralValue 0), 91) ∧
    (0 : Nat) ≠ 2 ^ 64 :=
  ⟨by decide, by rfl, by decide⟩

/-- The repository's own unit-test literal `D2FE28`: version 6, literal
value 2021, 21 bits. -/
theorem encodes_D2FE28 :
    EncodesAt [0xD2, 0xFE, 0x28] 0 (.mk 6 4 (.LiteralValue 2021)) 21 := by
  have hlast : LiteralEnc [0xD2, 0xFE, 0x28] 16 126 2021 5 :=
    LiteralEnc.last 16 126 (by decide) (by decide)
  have h2 : LiteralEnc [0xD2, 0xFE, 0x28] 11 7 2021 10 :=
    LiteralEnc.more 11 7 2021 5 (by decide) (by decide) hlast
  have h1 : LiteralEnc [0xD2, 0xFE, 0x28] 6 0 2021 15 :=
    LiteralEnc.more 6 0 2021 10 (by decide) (by decide) h2
  exact EncodesAt.literal [0xD2, 0xFE, 0x28] 0 2021 15 (by decide)
    (by decide) h1

/-- Witness for C3 on the unit-test literal `D2FE28`. -/
theorem claim_C3_witness :
    parse_transmission_packet [0xD2, 0xFE, 0x28] 21 0 =
      some (.mk 6 4 (.LiteralValue 2021), 21) :=
  claim_C3_parser_follows_format [0xD2, 0xFE, 0x28] _ 21 (by decide)
    encodes_D2FE28 21 (le_refl 21)

/-! ## Termination of the day-15 search loop (claim C6) -/

/-- `popMax` returns `none` exactly on the empty heap. -/
theorem popMax_eq_none {l : List NodeInfo} : popMax l = none ↔ l = [] := by
  cases l with
  | nil => simp [popMax]
  | cons x xs =>
      simp only [popMax]
      cases popMax xs with
      | none => simp
      | some r => cases r with | mk m rest => by_cases h : heap_le x m <;> simp [h]

/-- The popped element together with the rest is a permutation of the heap. -/
theorem popMax_perm {l : List NodeInfo} {m : NodeInfo}
    {rest : List NodeInfo} (h : popMax l = some (m, rest)) :
    l.Perm (m :: rest) := by
  induction l generalizing m rest with
  | nil => simp [popMax] at h
  | cons x xs ih =>
      rw [popMax] at h
      cases hp : popMax xs with
      | none =>
          rw [hp] at h
          have hxs : xs = [] := popMax_eq_none.mp hp
          cases h
          subst hxs
          rfl
      | some r =>
          rw [hp] at h
          cases r with
          | mk m2 rest2 =>
              dsimp only at h
              by_cases hle : heap_le x m2
              · rw [if_pos hle] at h
                cases h
                exact (List.Perm.cons x (ih hp)).trans
                  (List.Perm.swap m x rest2)
              · rw [if_neg hle] at h
                cases h
                rfl

/-- Being popped bounds every heap element's distance from below. -/
theorem popMax_min {l : List NodeInfo} {m : NodeInfo} {rest : List NodeInfo}
    (h : popMax l = some (m, rest)) :
    ∀ e ∈ l, m.dist_from_src ≤ e.dist_from_src := by
  induction l generalizing m rest with
  | nil => simp [popMax] at h
  | cons x xs ih =>
      rw [popMax] at h
      cases hp : popMax xs with
      | none =>
          rw [hp] at h
          have hxs : xs = [] := popMax_eq_none.mp hp
          cases h
          subst hxs
          intro e he
          simp at he
          subst he
          exact le_refl _
      | some r =>
          rw [hp] at h
          cases r with
          | mk m2 rest2 =>
              dsimp only at h
              by_cases hle : heap_le x m2
              · rw [if_pos hle] at h
                cases h
                intro e he
                rcases List.mem_cons.mp he with rfl | he2
                · unfold heap_le at hle
                  simp only [Bool.or_eq_true, decide_eq_true_eq,
                    Bool.and_eq_true, beq_iff_eq] at hle
                  rcases hle with h1 | ⟨h1, _⟩ <;> omega
                · exact ih hp e he2
              · rw [if_neg hle] at h
                cases h
                intro e he
                unfold heap_le at hle
                simp only [Bool.or_eq_true, decide_eq_true_eq,
                  Bool.and_eq_true, beq_iff_eq, not_or, not_and] at hle
                rcases List.mem_cons.mp he with rfl | he2
                · exact le_refl _
                · have := ih hp e he2
                  omega

/-- Candidate neighbors of an in-bounds position stay in bounds. -/
theorem candidate_neighbors_bound {height width : Nat} {p q : Position}
    {fin : List Position} (hp1 : p.1 < height) (hp2 : p.2 < width)
    (hq : q ∈ candidate_neighbors height width p fin) :
    q.1 < height ∧ q.2 < width := by
  unfold candidate_neighbors at hq
  rw [List.mem_filter] at hq
  have hmem := hq.1
  simp only [List.mem_append] at hmem
  rcases hmem with ((h1 | h1) | h1) | h1 <;>
  · split at h1 <;> simp_all <;> omega

/-- One relaxation pass cannot increase the measure components: each pushed
entry is paid for by a strict decrease of an in-bounds distance. -/
theorem relax_loop_measure (height width : Nat) (cost : Position → Nat)
    (end_pos : Position) (curr_dist : Nat) :
    ∀ (cs : List Position) (dist : Position → Nat) (heap : List NodeInfo),
      (∀ q ∈ cs, q.1 < height ∧ q.2 < width) →
      2 * distSum height width
          (relax_loop cost end_pos curr_dist cs dist heap).1 +
        (relax_loop cost end_pos curr_dist cs dist heap).2.1.length ≤
      2 * distSum height width dist + heap.length := by
  intro cs
  induction cs with
  | nil => intro dist heap _; rw [relax_loop]
  | cons n ns ih =>
      intro dist heap hin
      rw [relax_loop]
      by_cases hlt : curr_dist + cost n < dist n
      · rw [if_pos hlt]
        have hupd : distSum height width
            (Function.update dist n (curr_dist + cost n)) + dist n =
            distSum height width dist + (curr_dist + cost n) := by
          unfold distSum
          have hmem : n ∈ gridFinset height width := by
            have := hin n (List.mem_cons_self n ns)
            unfold gridFinset
            rw [Finset.mem_product, Finset.mem_range, Finset.mem_range]
            exact this
          rw [Finset.sum_update_of_mem hmem,
            Finset.sum_eq_sum_diff_singleton_add hmem dist]
          omega
        by_cases hend : n = end_pos
        · rw [if_pos hend]
          dsimp only
          rw [List.length_cons]
          omega
        · rw [if_neg hend]
          have := ih (Function.update dist n (curr_dist + cost n))
            (⟨n, cost n, curr_dist + cost n⟩ :: heap)
            (fun q hq => hin q (List.mem_cons_of_mem n hq))
          rw [List.length_cons] at this
          omega
      · rw [if_neg hlt]
        exact ih dist heap (fun q hq => hin q (List.mem_cons_of_mem n hq))

/-- Entries of the heap after a relaxation pass: either old entries or new
entries positioned at one of the candidates. -/
theorem relax_loop_heap_mem (cost : Position → Nat) (end_pos : Position)
    (curr_dist : Nat) :
    ∀ (cs : List Position) (dist : Position → Nat) (heap : List NodeInfo),
      ∀ e ∈ (relax_loop cost end_pos curr_dist cs dist heap).2.1,
        e ∈ heap ∨ e.position ∈ cs := by
  intro cs
  induction cs with
  | nil =>
      intro dist heap e he
      rw [relax_loop] at he
      exact Or.inl he
  | cons n ns ih =>
      intro dist heap e he
      rw [relax_loop] at he
      by_cases hlt : curr_dist + cost n < dist n
      · rw [if_pos hlt] at he
        by_cases hend : n = end_pos
        · rw [if_pos hend] at he
          dsimp only at he
          rcases List.mem_cons.mp he with rfl | he2
          · exact Or.inr (List.mem_cons_self _ _)
          · exact Or.inl he2
        · rw [if_neg hend] at he
          rcases ih _ _ e he with he2 | he2
          · rcases List.mem_cons.mp he2 with rfl | he3
            · exact Or.inr (List.mem_cons_self _ _)
            · exact Or.inl he3
          · exact Or.inr (List.mem_cons_of_mem _ he2)
      · rw [if_neg hlt] at he
        rcases ih _ _ e he with he2 | he2
        · exact Or.inl he2
        · exact Or.inr (List.mem_cons_of_mem _ he2)

/-- The main loop terminates: the measure strictly decreases at every
iteration that does not return. -/
theorem dijkstra_loop_term (height width : Nat) (cost : Position → Nat)
    (end_pos : Position) :
    ∀ N s, dijkstraMeasure height width s ≤ N →
      (∀ e ∈ s.heap, e.position.1 < height ∧ e.position.2 < width) →
      ∃ f t, dijkstra_loop height width cost end_pos f s = some t := by
  intro N
  induction N with
  | zero =>
      intro s hm _
      refine ⟨1, s, ?_⟩
      have hheap : s.heap = [] := by
        unfold dijkstraMeasure at hm
        exact List.length_eq_zero.mp (by omega)
      rw [dijkstra_loop, popMax_eq_none.mpr hheap]
  | succ N ih =>
      intro s hm hin
      cases hpop : popMax s.heap with
      | none =>
          refine ⟨1, s, ?_⟩
          rw [dijkstra_loop, hpop]
      | some r =>
          cases r with
          | mk curr rest =>
              have hperm := popMax_perm hpop
              have hlen : s.heap.length = rest.length + 1 := by
                have := hperm.length_eq
                simpa using this
              have hcurr : curr.position.1 < height ∧
                  curr.position.2 < width :=
                hin curr (hperm.mem_iff.mpr (List.mem_cons_self _ _))
              have hcands : ∀ q ∈ candidate_neighbors height width
                  curr.position s.finished, q.1 < height ∧ q.2 < width :=
                fun q hq => candidate_neighbors_bound hcurr.1 hcurr.2 hq
              have hrest : ∀ e ∈ rest, e.position.1 < height ∧
                  e.position.2 < width :=
                fun e he => hin e (hperm.mem_iff.mpr
                  (List.mem_cons_of_mem _ he))
              have hmeas := relax_loop_measure height width cost end_pos
                curr.dist_from_src
                (candidate_neighbors height width curr.position s.finished)
                s.dist rest hcands
              by_cases hearly : (relax_loop cost end_pos curr.dist_from_src
                  (candidate_neighbors height width curr.position s.finished)
                  s.dist rest).2.2
              · refine ⟨1, ⟨(relax_loop cost end_pos curr.dist_from_src
                    (candidate_neighbors height width curr.position
                      s.finished) s.dist rest).1,
                  (relax_loop cost end_pos curr.dist_from_src
                    (candidate_neighbors height width curr.position
                      s.finished) s.dist rest).2.1,
                  s.finished⟩, ?_⟩
                rw [dijkstra_loop, hpop]
                dsimp only
                rw [if_pos hearly]
              · have hsub : ∀ e ∈ (relax_loop cost end_pos
                    curr.dist_from_src (candidate_neighbors height width
                      curr.position s.finished) s.dist rest).2.1,
                    e.position.1 < height ∧ e.position.2 < width := by
                  intro e he
                  rcases relax_loop_heap_mem cost end_pos curr.dist_from_src
                    _ s.dist rest e he with h2 | h2
                  · exact hrest e h2
                  · exact hcands _ h2
                have hm2 : dijkstraMeasure height width
                    ⟨(relax_loop cost end_pos curr.dist_from_src
                        (candidate_neighbors height width curr.position
                          s.finished) s.dist rest).1,
                      (relax_loop cost end_pos curr.dist_from_src
                        (candidate_neighbors height width curr.position
                          s.finished) s.dist rest).2.1,
                      s.finished ++ [curr.position]⟩ ≤ N := by
                  unfold dijkstraMeasure at hm ⊢
                  dsimp only
                  omega
                obtain ⟨f, t, hft⟩ := ih _ hm2 hsub
                refine ⟨f + 1, t, ?_⟩
                rw [dijkstra_loop, hpop]
                dsimp only
                rw [if_neg hearly]
                exact hft

/-- `shortest_path_to_bottom_right` terminates on every map with positive
dimensions, with some sufficient fuel. -/
theorem shortest_path_terminates (height width : Nat)
    (cost : Position → Nat) (hH : 0 < height) (hW : 0 < width) :
    ∃ f t, shortest_path_to_bottom_right height width cost f = some t := by
  unfold shortest_path_to_bottom_right
  exact dijkstra_loop_term height width cost (height - 1, width - 1)
    _ _ (le_refl _)
    (by
      intro e he
      simp only [List.mem_singleton] at he
      subst he
      exact ⟨hH, hW⟩)

/-! ## Claim C6: the computations run to completion -/

/-- Claim C6: the day-16 parser terminates (returning the encoded tree) on
every well-formed transmission — the recursion consumes fuel bounded by the
encoded bit count, each recursive call consuming at least 6 bits — and the
day-15 search loop terminates on every rectangular map, its measure
strictly decreasing at every iteration. -/
theorem claim_C6_runs_to_completion :
    (∀ (bytes : List Nat) (p : TransmissionPacket) (n : Nat),
      (∀ x ∈ bytes, x < 256) → EncodesAt bytes 0 p n → ∀ f, n ≤ f →
        parse_transmission_packet bytes f 0 = some (p, n)) ∧
    (∀ (height width : Nat) (cost : Position → Nat), 0 < height → 0 < width →
      ∃ f t, shortest_path_to_bottom_right height width cost f = some t) :=
  ⟨fun bytes p n hbytes h f hf => parse_encodes_at bytes hbytes n 0 p h f hf,
   fun height width cost hH hW =>
    shortest_path_terminates height width cost hH hW⟩

/-- Witness for C6: the parser on the unit-test literal `D2FE28`, and the
search on a 1×1 map. -/
theorem claim_C6_witness :
    parse_transmission_packet [0xD2, 0xFE, 0x28] 25 0 =
      some (.mk 6 4 (.LiteralValue 2021), 21) ∧
    ∃ f t, shortest_path_to_bottom_right 1 1 (fun _ => 3) f = some t :=
  ⟨claim_C6_runs_to_completion.1 [0xD2, 0xFE, 0x28] _ 21 (by decide)
      encodes_D2FE28 25 (by decide),
   claim_C6_runs_to_completion.2 1 1 (fun _ => 3) (by decide) (by decide)⟩

/-! ## Claim C4: day-12 path enumeration -/

/-- Membership in a fold of appended lists. -/
theorem mem_foldr_append {α β : Type} (g : α → List β) (l : List α) (x : β) :
    x ∈ l.foldr (fun c acc => g c ++ acc) [] ↔ ∃ c ∈ l, x ∈ g c := by
  induction l with
  | nil => simp
  | cons a l ih => simp [List.mem_append, ih]

/-- Everything `visit_cave` produces extends the current path by a suffix
the recursion structure allows. -/
theorem visit_cave_sound (adj : String → List String) :
    ∀ fuel cave visited path q, q ∈ visit_cave adj fuel cave visited path →
      ∃ s, q = path ++ s ∧ SuffixOK adj cave visited s := by
  intro fuel
  induction fuel with
  | zero =>
      intro cave visited path q hq
      rw [visit_cave] at hq
      by_cases hEnd : get_cave_type cave = CaveType.End
      · rw [if_pos hEnd] at hq
        simp only [List.mem_singleton] at hq
        exact ⟨[cave], hq, SuffixOK.stop cave visited hEnd⟩
      · rw [if_neg hEnd] at hq
        simp at hq
  | succ fuel ih =>
      intro cave visited path q hq
      rw [visit_cave] at hq
      by_cases hEnd : get_cave_type cave = CaveType.End
      · rw [if_pos hEnd] at hq
        simp only [List.mem_singleton] at hq
        exact ⟨[cave], hq, SuffixOK.stop cave visited hEnd⟩
      · rw [if_neg hEnd] at hq
        rw [mem_foldr_append] at hq
        obtain ⟨c, hc, hq⟩ := hq
        rw [List.mem_filter] at hc
        obtain ⟨s, rfl, hs⟩ := ih c _ _ q hq
        refine ⟨cave :: s, by simp, ?_⟩
        exact SuffixOK.step cave visited c s hEnd hc.1 hc.2 hs

/-- With enough fuel, `visit_cave` produces every allowed suffix. -/
theorem visit_cave_complete (adj : String → List String) :
    ∀ {cave visited s}, SuffixOK adj cave visited s →
      ∀ f, s.length ≤ f → ∀ path,
        (path ++ s) ∈ visit_cave adj f cave visited path := by
  intro cave visited s h
  induction h with
  | stop cave visited hEnd =>
      intro f _ path
      rw [visit_cave.eq_def]
      dsimp only
      rw [if_pos hEnd]
      simp
  | step cave visited c s hEnd hadj hvis _ ih =>
      intro f hf path
      obtain ⟨f1, rfl⟩ : ∃ f1, f = f1 + 1 :=
        ⟨f - 1, by simp at hf; omega⟩
      rw [visit_cave.eq_def]
      dsimp only
      rw [if_neg hEnd]
      rw [mem_foldr_append]
      refine ⟨c, ?_, ?_⟩
      · rw [List.mem_filter]
        exact ⟨hadj, hvis⟩
      · rw [show path ++ cave :: s = (path ++ [cave]) ++ s from by simp]
        exact ih f1 (by simp at hf; omega) (path ++ [cave])

/-- Membership in the updated visited list. -/
theorem insert_visited_mem {cave x : String} {visited : List String} :
    x ∈ insert_visited cave visited ↔ x = cave ∨ x ∈ visited := by
  unfold insert_visited
  by_cases h : cave ∈ visited
  · have he : (if !visited.contains cave then visited ++ [cave]
        else visited) = visited := by simp [h]
    rw [he]
    constructor
    · exact Or.inr
    · rintro (rfl | hx)
      · exact h
      · exact hx
  · have he : (if !visited.contains cave then visited ++ [cave]
        else visited) = visited ++ [cave] := by simp [h]
    rw [he, List.mem_append, List.mem_singleton]
    tauto

/-- `can_be_visited` succeeds exactly for unvisited or big caves. -/
theorem can_be_visited_iff {c : String} {visited : List String} :
    can_be_visited c visited = true ↔
      c ∉ visited ∨ get_cave_type c = CaveType.Big := by
  unfold can_be_visited
  by_cases h : c ∈ visited
  · simp [h]
  · simp [h]

/-- An allowed suffix is nonempty and starts at the current cave. -/
theorem SuffixOK.head {adj : String → List String} {cave : String}
    {visited s : List String} (h : SuffixOK adj cave visited s) :
    ∃ t, s = cave :: t := by
  cases h with
  | stop _ _ _ => exact ⟨[], rfl⟩
  | step _ _ _ s _ _ _ _ => exact ⟨s, rfl⟩

/-- Structural facts about an allowed suffix: it is a connected walk from
the current cave ending at the single `End` element, and each non-big cave
occurs at most once and never if already visited (other than the current
cave itself). -/
theorem SuffixOK.flat {adj : String → List String} :
    ∀ {cave : String} {visited s : List String},
      SuffixOK adj cave visited s →
      (∃ t, s = cave :: t ∧ List.Chain (fun a b => b ∈ adj a) cave t) ∧
      (∃ e, s.getLast? = some e ∧ get_cave_type e = CaveType.End) ∧
      (∀ x ∈ s.dropLast, get_cave_type x ≠ CaveType.End) ∧
      (∀ x, get_cave_type x ≠ CaveType.Big → x ∈ visited →
        s.count x ≤ if x = cave then 1 else 0) ∧
      (∀ x, get_cave_type x ≠ CaveType.Big →
        get_cave_type x ≠ CaveType.End → s.count x ≤ 1) := by
  intro cave visited s h
  induction h with
  | stop cave visited hEnd =>
      refine ⟨⟨[], rfl, List.Chain.nil⟩, ⟨cave, rfl, hEnd⟩, ?_, ?_, ?_⟩
      · intro x hx
        simp at hx
      · intro x hxB hxV
        rcases eq_or_ne x cave with rfl | hxc
        · simp [List.count_cons]
        · simp [List.count_cons, hxc]
      · intro x hxB hxE
        rcases eq_or_ne x cave with rfl | hxc
        · simp [List.count_cons]
        · simp [List.count_cons, hxc]
  | step cave visited c s hEnd hadj hvis hs ih =>
      obtain ⟨⟨t, rfl, hchain⟩, ⟨e, hlast, heEnd⟩, hmid, ha, hb⟩ := ih
      have hccave : ∀ y, get_cave_type y ≠ CaveType.Big → y ∈
          insert_visited cave visited → y ≠ c := by
        intro y hyB hyV hyc
        subst hyc
        rcases can_be_visited_iff.mp hvis with hnv | hbig
        · exact hnv hyV
        · exact hyB hbig
      refine ⟨⟨c :: t, rfl, List.Chain.cons hadj hchain⟩, ⟨e, ?_, heEnd⟩,
        ?_, ?_, ?_⟩
      · rw [List.getLast?_cons, hlast]
        simp
      · intro x hx
        rw [List.dropLast_cons_of_ne_nil (by simp)] at hx
        rcases List.mem_cons.mp hx with rfl | hx2
        · exact hEnd
        · exact hmid x hx2
      · intro x hxB hxV
        rcases eq_or_ne x cave with rfl | hxc
        · have hxin : x ∈ insert_visited x visited :=
            insert_visited_mem.mpr (Or.inl rfl)
          have hxnc := hccave x hxB hxin
          have h1 := ha x hxB hxin
          rw [if_neg hxnc] at h1
          rw [if_pos rfl, List.count_cons, if_pos (beq_self_eq_true x)]
          omega
        · have hxin : x ∈ insert_visited cave visited :=
            insert_visited_mem.mpr (Or.inr hxV)
          have hxnc := hccave x hxB hxin
          have h1 := ha x hxB hxin
          rw [if_neg hxnc] at h1
          rw [if_neg hxc, List.count_cons,
            if_neg (by simpa using Ne.symm hxc)]
          omega
      · intro x hxB hxE
        rcases eq_or_ne x cave with rfl | hxc
        · have hxin : x ∈ insert_visited x visited :=
            insert_visited_mem.mpr (Or.inl rfl)
          have hxnc := hccave x hxB hxin
          have h1 := ha x hxB hxin
          rw [if_neg hxnc] at h1
          rw [List.count_cons, if_pos (beq_self_eq_true x)]
          omega
        · have h1 := hb x hxB hxE
          rw [List.count_cons, if_neg (by simpa using Ne.symm hxc)]
          omega
/-- A cave has type `End` exactly when its id is `"end"`. -/
theorem get_cave_type_end_iff {x : String} :
    get_cave_type x = CaveType.End ↔ x = "end" := by
  unfold get_cave_type
  split_ifs with h1 h2
  · subst h1
    decide
  · subst h2
    simp
  · constructor
    · intro h
      exact absurd h (by decide)
    · intro h
      exact absurd h h2
  · constructor
    · intro h
      exact absurd h (by decide)
    · intro h
      exact absurd h h2

/-- A cave has type `Start` exactly when its id is `"start"`. -/
theorem get_cave_type_start_iff {x : String} :
    get_cave_type x = CaveType.Start ↔ x = "start" := by
  unfold get_cave_type
  split_ifs with h1 h2
  · simp [h1]
  · subst h2
    constructor
    · intro h
      exact absurd h (by decide)
    · intro h
      exact absurd h h1
  · constructor
    · intro h
      exact absurd h (by decide)
    · intro h
      exact absurd h h1
  · constructor
    · intro h
      exact absurd h (by decide)
    · intro h
      exact absurd h h1

/-- Converse of `SuffixOK.flat`: a connected suffix ending at the single
`End` element, avoiding the visited non-big caves and repeating no non-big
cave, is an allowed suffix. -/
theorem SuffixOK.of_flat {adj : String → List String} :
    ∀ (t : List String) (cave : String) (visited : List String),
      List.Chain (fun a b => b ∈ adj a) cave t →
      (∃ e, (cave :: t).getLast? = some e ∧
        get_cave_type e = CaveType.End) →
      (∀ x ∈ (cave :: t).dropLast, get_cave_type x ≠ CaveType.End) →
      (∀ x, get_cave_type x ≠ CaveType.Big → x ∈ visited →
        x ∉ cave :: t) →
      (∀ x, get_cave_type x ≠ CaveType.Big →
        get_cave_type x ≠ CaveType.End → (cave :: t).count x ≤ 1) →
      SuffixOK adj cave visited (cave :: t) := by
  intro t
  induction t with
  | nil =>
      intro cave visited _ hlast _ _ _
      obtain ⟨e, he, heE⟩ := hlast
      simp only [List.getLast?_singleton, Option.some.injEq] at he
      subst he
      exact SuffixOK.stop cave visited heE
  | cons c t ih =>
      intro cave visited hchain hlast hmid hA hB
      have hEnd : get_cave_type cave ≠ CaveType.End := by
        apply hmid
        rw [List.dropLast_cons_of_ne_nil (by simp)]
        exact List.mem_cons_self cave _
      have hcadj : c ∈ adj cave := (List.chain_cons.mp hchain).1
      have hchain' : List.Chain (fun a b => b ∈ adj a) c t :=
        (List.chain_cons.mp hchain).2
      have hcv : can_be_visited c (insert_visited cave visited) = true := by
        rcases eq_or_ne (get_cave_type c) CaveType.Big with hbig | hnbig
        · exact can_be_visited_iff.mpr (Or.inr hbig)
        · refine can_be_visited_iff.mpr (Or.inl ?_)
          intro hcin
          rcases insert_visited_mem.mp hcin with hceq | hcv2
          · have hEndc : get_cave_type c ≠ CaveType.End := by
              rw [hceq]
              exact hEnd
            have hcount := hB c hnbig hEndc
            rw [← hceq] at hcount
            rw [List.count_cons, List.count_cons,
              if_pos (beq_self_eq_true c)] at hcount
            omega
          · exact hA c hnbig hcv2 (by simp)
      refine SuffixOK.step cave visited c (c :: t) hEnd hcadj hcv ?_
      apply ih c (insert_visited cave visited) hchain'
      · obtain ⟨e, he, heE⟩ := hlast
        rw [List.getLast?_cons_cons] at he
        exact ⟨e, he, heE⟩
      · intro x hx
        apply hmid
        rw [List.dropLast_cons_of_ne_nil (by simp)]
        exact List.mem_cons_of_mem cave hx
      · intro x hxB hxV
        rcases insert_visited_mem.mp hxV with hxeq | hxv2
        · subst hxeq
          have hcount := hB x hxB hEnd
          rw [List.count_cons, if_pos (beq_self_eq_true x)] at hcount
          have h0 : (c :: t).count x = 0 := by omega
          exact (List.count_eq_zero.mp h0)
        · intro hxin
          exact hA x hxB hxv2 (List.mem_cons_of_mem cave hxin)
      · intro x hxB hxE
        have hcount := hB x hxB hxE
        rw [List.count_cons] at hcount
        omega
/-- The paths of claim C4 are exactly the suffixes the recursion of
`visit_cave` allows from `"start"` with nothing visited. -/
theorem validCavePath_iff_suffixOK {adj : String → List String}
    {p : List String} :
    ValidCavePath adj p ↔ SuffixOK adj "start" [] p := by
  constructor
  · rintro ⟨t, rfl, htne, hchain, hlast, hmid, hstart, hsmall⟩
    apply SuffixOK.of_flat t "start" [] hchain
    · refine ⟨"end", ?_, by decide⟩
      cases t with
      | nil => exact absurd rfl htne
      | cons c t2 =>
          rw [List.getLast?_cons_cons]
          exact hlast
    · intro x hx
      rw [List.dropLast_cons_of_ne_nil htne] at hx
      rcases List.mem_cons.mp hx with rfl | hx2
      · decide
      · intro hxE
        exact hmid x hx2 (get_cave_type_end_iff.mp hxE)
    · intro x _ hx
      simp at hx
    · intro x hxB hxE
      rcases htype : get_cave_type x with _ | _ | _ | _
      · have hxs : x = "start" := get_cave_type_start_iff.mp htype
        subst hxs
        rw [List.count_cons, if_pos (beq_self_eq_true "start")]
        rw [List.count_eq_zero.mpr hstart]
      · exact absurd htype hxE
      · have h1 := hsmall x htype
        rw [List.count_cons] at h1
        rw [List.count_cons]
        omega
      · exact absurd htype hxB
  · intro h
    obtain ⟨⟨t, rfl, hchain⟩, ⟨e, hlast, heE⟩, hmid, _, hB⟩ := h.flat
    have htne : t ≠ [] := by
      intro h0
      subst h0
      simp only [List.getLast?_singleton, Option.some.injEq] at hlast
      subst hlast
      exact absurd heE (by decide)
    have heend : e = "end" := get_cave_type_end_iff.mp heE
    subst heend
    refine ⟨t, rfl, htne, hchain, ?_, ?_, ?_, ?_⟩
    · cases t with
      | nil => exact absurd rfl htne
      | cons c t2 =>
          rw [List.getLast?_cons_cons] at hlast
          exact hlast
    · intro x hx hxe
      subst hxe
      have hdl : ("start" :: t).dropLast =
          "start" :: t.dropLast := List.dropLast_cons_of_ne_nil htne
      exact hmid "end" (hdl ▸ List.mem_cons_of_mem "start" hx) (by decide)
    · have hc := hB "start" (by decide) (by decide)
      rw [List.count_cons, if_pos (beq_self_eq_true "start")] at hc
      have h0 : t.count "start" = 0 := by omega
      exact List.count_eq_zero.mp h0
    · intro x hxS
      exact hB x (by rw [hxS]; decide) (by rw [hxS]; decide)
/-- A fold of appended lists is duplicate-free when the index list is
duplicate-free, each block is duplicate-free, and a key function recovers
the index from any element of its block. -/
theorem foldr_append_nodup {α β : Type} (g : α → List β)
    (key : β → Option α) :
    ∀ l : List α, l.Nodup → (∀ c ∈ l, (g c).Nodup) →
      (∀ c ∈ l, ∀ q ∈ g c, key q = some c) →
      (l.foldr (fun c acc => g c ++ acc) []).Nodup := by
  intro l
  induction l with
  | nil =>
      intro _ _ _
      simp
  | cons a l ih =>
      intro hnd hg hk
      simp only [List.foldr_cons]
      apply List.Nodup.append
      · exact hg a (List.mem_cons_self a l)
      · exact ih (List.Nodup.of_cons hnd)
          (fun c hc => hg c (List.mem_cons_of_mem a hc))
          (fun c hc => hk c (List.mem_cons_of_mem a hc))
      · intro q hqa hqf
        obtain ⟨c, hc, hqc⟩ := (mem_foldr_append g l q).mp hqf
        have k1 := hk a (List.mem_cons_self a l) q hqa
        have k2 := hk c (List.mem_cons_of_mem a hc) q hqc
        rw [k1] at k2
        injection k2 with k3
        rw [k3] at hnd
        exact (List.nodup_cons.mp hnd).1 hc

/-- With duplicate-free connection lists, `visit_cave` never records the
same path twice. -/
theorem visit_cave_nodup (adj : String → List String)
    (hadjN : ∀ v, (adj v).Nodup) :
    ∀ fuel cave visited path,
      (visit_cave adj fuel cave visited path).Nodup := by
  intro fuel
  induction fuel with
  | zero =>
      intro cave visited path
      rw [visit_cave]
      by_cases hEnd : get_cave_type cave = CaveType.End
      · rw [if_pos hEnd]
        simp
      · rw [if_neg hEnd]
        simp
  | succ fuel ih =>
      intro cave visited path
      rw [visit_cave]
      by_cases hEnd : get_cave_type cave = CaveType.End
      · rw [if_pos hEnd]
        simp
      · rw [if_neg hEnd]
        apply foldr_append_nodup _
          (fun q => (q.drop (path.length + 1)).head?)
        · exact List.Nodup.filter _ (hadjN cave)
        · intro c _
          exact ih c _ _
        · intro c _ q hq
          obtain ⟨s, rfl, hs⟩ := visit_cave_sound adj fuel c _ _ q hq
          obtain ⟨s2, rfl⟩ := hs.head
          rw [show path.length + 1 = (path ++ [cave]).length from by simp,
            List.drop_left]
          rfl
/-- Filtering with a weaker predicate keeps at most as many elements. -/
theorem length_filter_mono {α : Type} (p q : α → Bool) (l : List α)
    (h : ∀ x, p x = true → q x = true) :
    (l.filter p).length ≤ (l.filter q).length := by
  induction l with
  | nil => simp
  | cons a l ih =>
      rw [List.filter_cons, List.filter_cons]
      by_cases hp : p a = true
      · rw [if_pos hp, if_pos (h a hp)]
        simpa using ih
      · by_cases hq : q a = true
        · rw [if_neg hp, if_pos hq]
          simp only [List.length_cons]
          omega
        · rw [if_neg hp, if_neg hq]
          exact ih

/-- Filtering with a strictly weaker predicate (failing on a present
element that the weaker predicate keeps) loses at least one element. -/
theorem length_filter_lt {α : Type} (p q : α → Bool) (l : List α)
    (h : ∀ x, p x = true → q x = true) (a : α) (ha : a ∈ l)
    (hqa : q a = true) (hpa : p a = false) :
    (l.filter p).length < (l.filter q).length := by
  induction l with
  | nil => simp at ha
  | cons b l ih =>
      rw [List.filter_cons, List.filter_cons]
      rcases List.mem_cons.mp ha with rfl | hal
      · rw [if_pos hqa, if_neg (by simp [hpa])]
        simp only [List.length_cons]
        exact Nat.lt_succ_of_le (length_filter_mono p q l h)
      · by_cases hp : p b = true
        · rw [if_pos hp, if_pos (h b hp)]
          simp only [List.length_cons]
          exact Nat.succ_lt_succ (ih hal)
        · by_cases hq : q b = true
          · rw [if_neg hp, if_pos hq]
            simp only [List.length_cons]
            exact Nat.lt_succ_of_lt (ih hal)
          · rw [if_neg hp, if_neg hq]
            exact ih hal

/-- Visiting a cave never increases the potential. -/
theorem nonBigFree_insert_le (U visited : List String) (cave : String) :
    nonBigFree U (insert_visited cave visited) ≤ nonBigFree U visited := by
  apply length_filter_mono
  intro x hx
  simp only [Bool.and_eq_true, Bool.not_eq_eq_eq_not, Bool.not_true,
    decide_eq_false_iff_not] at hx
  simp only [Bool.and_eq_true, Bool.not_eq_eq_eq_not, Bool.not_true,
    decide_eq_false_iff_not]
  exact ⟨hx.1, fun hv => hx.2 (insert_visited_mem.mpr (Or.inr hv))⟩

/-- Visiting a fresh non-big cave of `U` strictly decreases the
potential. -/
theorem nonBigFree_insert_lt (U visited : List String) (cave : String)
    (hU : cave ∈ U) (hnb : get_cave_type cave ≠ CaveType.Big)
    (hnv : cave ∉ visited) :
    nonBigFree U (insert_visited cave visited) < nonBigFree U visited := by
  apply length_filter_lt _ _ _ ?mono cave hU
  · simp [hnb, hnv]
  · simp [insert_visited_mem]
  case mono =>
    intro x hx
    simp only [Bool.and_eq_true, Bool.not_eq_eq_eq_not, Bool.not_true,
      decide_eq_false_iff_not] at hx
    simp only [Bool.and_eq_true, Bool.not_eq_eq_eq_not, Bool.not_true,
      decide_eq_false_iff_not]
    exact ⟨hx.1, fun hv => hx.2 (insert_visited_mem.mpr (Or.inr hv))⟩

/-- Without big-big connections, an allowed suffix is at most twice the
potential plus a constant: consecutive caves cannot both be big, and each
non-big step permanently spends one unit of potential. -/
theorem suffixOK_length_bound {adj : String → List String}
    {U : List String} (hadjU : ∀ v x, x ∈ adj v → x ∈ U)
    (hnobig : ∀ a b, b ∈ adj a → get_cave_type a = CaveType.Big →
      get_cave_type b ≠ CaveType.Big) :
    ∀ {cave visited s}, SuffixOK adj cave visited s →
      cave ∈ U → (get_cave_type cave ≠ CaveType.Big → cave ∉ visited) →
      s.length ≤ 2 * nonBigFree U visited +
        (if get_cave_type cave = CaveType.Big then 3 else 2) := by
  intro cave visited s h
  induction h with
  | stop cave visited hEnd =>
      intro _ _
      by_cases hb : get_cave_type cave = CaveType.Big
      · rw [if_pos hb]
        simp only [List.length_singleton]
        omega
      · rw [if_neg hb]
        simp only [List.length_singleton]
        omega
  | step cave visited c s hEnd hadj hvis h ih =>
      intro hcaveU hcavev
      have hcU : c ∈ U := hadjU cave c hadj
      have hcvis : get_cave_type c ≠ CaveType.Big →
          c ∉ insert_visited cave visited := by
        intro hcb
        rcases can_be_visited_iff.mp hvis with h1 | h2
        · exact h1
        · exact absurd h2 hcb
      have hih := ih hcU hcvis
      by_cases hb : get_cave_type cave = CaveType.Big
      · have hcnb : get_cave_type c ≠ CaveType.Big := hnobig cave c hadj hb
        rw [if_neg hcnb] at hih
        have hle := nonBigFree_insert_le U visited cave
        rw [if_pos hb]
        simp only [List.length_cons]
        omega
      · have hlt := nonBigFree_insert_lt U visited cave hcaveU hb (hcavev hb)
        rw [if_neg hb]
        simp only [List.length_cons]
        have hih2 : s.length ≤
            2 * nonBigFree U (insert_visited cave visited) + 3 := by
          by_cases hcb : get_cave_type c = CaveType.Big
          · rw [if_pos hcb] at hih
            exact hih
          · rw [if_neg hcb] at hih
            omega
        omega
/-- Membership in the built connection lists, in terms of the edge
list. -/
theorem mem_build_connections {edges : List (String × String)}
    {v x : String} :
    x ∈ build_connections edges v ↔
      ∃ e ∈ edges, (v = e.1 ∧ x = e.2) ∨ (v = e.2 ∧ x = e.1) := by
  induction edges with
  | nil => simp [build_connections]
  | cons e es ih =>
      have heq : build_connections (e :: es) v =
          ((if v = e.1 then [e.2] else []) ++
            (if v = e.2 then [e.1] else [])) ++ build_connections es v :=
        rfl
      rw [heq, List.mem_append, List.mem_append, ih]
      constructor
      · rintro ((hx | hx) | ⟨f, hf, hor⟩)
        · by_cases h1 : v = e.1
          · rw [if_pos h1] at hx
            simp only [List.mem_singleton] at hx
            exact ⟨e, List.mem_cons_self e es, Or.inl ⟨h1, hx⟩⟩
          · rw [if_neg h1] at hx
            simp at hx
        · by_cases h2 : v = e.2
          · rw [if_pos h2] at hx
            simp only [List.mem_singleton] at hx
            exact ⟨e, List.mem_cons_self e es, Or.inr ⟨h2, hx⟩⟩
          · rw [if_neg h2] at hx
            simp at hx
        · exact ⟨f, List.mem_cons_of_mem e hf, hor⟩
      · rintro ⟨f, hf, hor⟩
        rcases List.mem_cons.mp hf with rfl | hf2
        · rcases hor with ⟨h1, h2⟩ | ⟨h1, h2⟩
          · refine Or.inl (Or.inl ?_)
            rw [if_pos h1]
            simp [h2]
          · refine Or.inl (Or.inr ?_)
            rw [if_pos h1]
            simp [h2]
        · exact Or.inr ⟨f, hf2, hor⟩

/-- Every built connection target is a cave mentioned by the edge list. -/
theorem mem_caveList {edges : List (String × String)} {v x : String}
    (hx : x ∈ build_connections edges v) : x ∈ caveList edges := by
  obtain ⟨e, he, hor⟩ := mem_build_connections.mp hx
  unfold caveList
  rw [List.mem_dedup, List.mem_append]
  rcases hor with ⟨_, h2⟩ | ⟨_, h2⟩
  · exact Or.inr (List.mem_map.mpr ⟨e, he, h2.symm⟩)
  · exact Or.inl (List.mem_map.mpr ⟨e, he, h2.symm⟩)

/-- With no self-loops and no repeated (unordered) edge, every built
connection list is duplicate-free. -/
theorem build_connections_nodup (edges : List (String × String))
    (hself : ∀ e ∈ edges, e.1 ≠ e.2)
    (hpair : edges.Pairwise (fun e f =>
      ¬(e.1 = f.1 ∧ e.2 = f.2) ∧ ¬(e.1 = f.2 ∧ e.2 = f.1))) :
    ∀ v, (build_connections edges v).Nodup := by
  induction edges with
  | nil =>
      intro v
      simp [build_connections]
  | cons e es ih =>
      intro v
      have hrest : (build_connections es v).Nodup :=
        ih (fun f hf => hself f (List.mem_cons_of_mem e hf))
          (List.Pairwise.of_cons hpair) v
      have hhead := (List.pairwise_cons.mp hpair).1
      have heq : build_connections (e :: es) v =
          ((if v = e.1 then [e.2] else []) ++
            (if v = e.2 then [e.1] else [])) ++ build_connections es v :=
        rfl
      rw [heq]
      by_cases h1 : v = e.1 <;> by_cases h2 : v = e.2
      · exact absurd (h1.symm.trans h2) (hself e (List.mem_cons_self e es))
      · rw [if_pos h1, if_neg h2]
        simp only [List.append_nil, List.singleton_append]
        rw [List.nodup_cons]
        refine ⟨?_, hrest⟩
        intro hmem
        obtain ⟨f, hf, hor⟩ := mem_build_connections.mp hmem
        rcases hor with ⟨hv, hx⟩ | ⟨hv, hx⟩
        · exact (hhead f hf).1 ⟨h1.symm.trans hv, hx⟩
        · exact (hhead f hf).2 ⟨h1.symm.trans hv, hx⟩
      · rw [if_neg h1, if_pos h2]
        simp only [List.nil_append, List.singleton_append]
        rw [List.nodup_cons]
        refine ⟨?_, hrest⟩
        intro hmem
        obtain ⟨f, hf, hor⟩ := mem_build_connections.mp hmem
        rcases hor with ⟨hv, hx⟩ | ⟨hv, hx⟩
        · exact (hhead f hf).2 ⟨hx, h2.symm.trans hv⟩
        · exact (hhead f hf).1 ⟨hx, h2.symm.trans hv⟩
      · rw [if_neg h1, if_neg h2]
        simpa using hrest

/-- If no edge joins two big caves, the built adjacency never does
either. -/
theorem adj_nobig (edges : List (String × String))
    (h3 : ∀ e ∈ edges, ¬(get_cave_type e.1 = CaveType.Big ∧
      get_cave_type e.2 = CaveType.Big)) :
    ∀ a b, b ∈ build_connections edges a →
      get_cave_type a = CaveType.Big → get_cave_type b ≠ CaveType.Big := by
  intro a b hb ha hbB
  obtain ⟨e, he, hor⟩ := mem_build_connections.mp hb
  rcases hor with ⟨h1, h2⟩ | ⟨h1, h2⟩
  · exact h3 e he ⟨h1 ▸ ha, h2 ▸ hbB⟩
  · exact h3 e he ⟨h2 ▸ hbB, h1 ▸ ha⟩
/-- Claim C4: for a cave system built from undirected connections (with
duplicate-free connection lists and no big-big connection), with enough
fuel `get_cave_paths` returns, without duplicates, exactly the paths from
`start` to `end` in which `start` occurs only as the first element and
each small cave occurs at most once (big caves unrestricted), and
`count_paths` returns the number of such paths. -/
theorem claim_C4_path_enumeration (edges : List (String × String))
    (hadjN : ∀ v, (build_connections edges v).Nodup)
    (hnobig : ∀ a b, b ∈ build_connections edges a →
      get_cave_type a = CaveType.Big → get_cave_type b ≠ CaveType.Big) :
    ∃ f0 : Nat, ∀ f, f0 ≤ f →
      (get_cave_paths (build_connections edges) f).Nodup ∧
      (∀ p, p ∈ get_cave_paths (build_connections edges) f ↔
        ValidCavePath (build_connections edges) p) ∧
      count_paths (build_connections edges) f =
        Set.ncard {p | ValidCavePath (build_connections edges) p} := by
  refine ⟨2 * nonBigFree ("start" :: caveList edges) [] + 2, ?_⟩
  intro f hf
  have hU : ∀ v x, x ∈ build_connections edges v →
      x ∈ "start" :: caveList edges :=
    fun v x hx => List.mem_cons_of_mem _ (mem_caveList hx)
  have hiff : ∀ p, p ∈ get_cave_paths (build_connections edges) f ↔
      ValidCavePath (build_connections edges) p := by
    intro p
    constructor
    · intro hp
      obtain ⟨s, hps, hs⟩ :=
        visit_cave_sound (build_connections edges) f "start" [] [] p hp
      rw [List.nil_append] at hps
      subst hps
      exact validCavePath_iff_suffixOK.mpr hs
    · intro hp
      have hs := validCavePath_iff_suffixOK.mp hp
      have hlen := suffixOK_length_bound hU hnobig hs
        (List.mem_cons_self _ _) (fun _ => List.not_mem_nil _)
      rw [if_neg (by decide)] at hlen
      have hmem := visit_cave_complete (build_connections edges) hs f
        (by omega) []
      rw [List.nil_append] at hmem
      exact hmem
  have hnd : (get_cave_paths (build_connections edges) f).Nodup :=
    visit_cave_nodup (build_connections edges) hadjN f "start" [] []
  refine ⟨hnd, hiff, ?_⟩
  have hset : {p | ValidCavePath (build_connections edges) p} =
      ↑(get_cave_paths (build_connections edges) f).toFinset := by
    ext p
    simp only [Set.mem_setOf_eq, Finset.mem_coe, List.mem_toFinset]
    exact (hiff p).symm
  rw [hset, Set.ncard_coe_Finset, List.toFinset_card_of_nodup hnd]
  rfl

/-- Witness for claim C4 on the cave system start-A, A-end. -/
theorem claim_C4_witness :
    ∃ f0 : Nat, ∀ f, f0 ≤ f →
      (get_cave_paths
        (build_connections [("start", "A"), ("A", "end")]) f).Nodup ∧
      (∀ p, p ∈ get_cave_paths
          (build_connections [("start", "A"), ("A", "end")]) f ↔
        ValidCavePath
          (build_connections [("start", "A"), ("A", "end")]) p) ∧
      count_paths (build_connections [("start", "A"), ("A", "end")]) f =
        Set.ncard {p | ValidCavePath
          (build_connections [("start", "A"), ("A", "end")]) p} :=
  claim_C4_path_enumeration [("start", "A"), ("A", "end")]
    (build_connections_nodup _ (by decide) (by decide))
    (adj_nobig _ (by decide))
/-! ## Claim C2: day-15 Dijkstra correctness -/

/-- Adjacent positions differ. -/
theorem adjacentPos_ne {p q : Position} (h : AdjacentPos p q) : q ≠ p := by
  obtain ⟨p1, p2⟩ := p
  obtain ⟨q1, q2⟩ := q
  rcases h with ⟨h1, h2 | h2⟩ | ⟨h1, h2 | h2⟩ <;>
    simp only [Prod.mk.injEq, ne_eq, not_and] <;> omega

/-- The candidate list contains exactly the in-bounds 4-neighbours that are
not yet finished. -/
theorem mem_candidate_neighbors {height width : Nat} {p n : Position}
    {fin : List Position} (hp : InBounds height width p) :
    n ∈ candidate_neighbors height width p fin ↔
      AdjacentPos p n ∧ InBounds height width n ∧ n ∉ fin := by
  obtain ⟨p1, p2⟩ := p
  obtain ⟨n1, n2⟩ := n
  obtain ⟨hp1, hp2⟩ := hp
  unfold candidate_neighbors
  rw [List.mem_filter]
  simp only [List.mem_append, AdjacentPos, InBounds]
  constructor
  · rintro ⟨hmem, hnf⟩
    have hnotin : (n1, n2) ∉ fin := by simpa using hnf
    have hco : ((n1 = p1 ∧ (n2 = p2 + 1 ∨ p2 = n2 + 1)) ∨
        (n2 = p2 ∧ (n1 = p1 + 1 ∨ p1 = n1 + 1))) ∧
        (n1 < height ∧ n2 < width) := by
      rcases hmem with ((h1 | h1) | h1) | h1
      · by_cases hc : 0 < p2
        · rw [if_pos hc] at h1
          simp only [List.mem_singleton, Prod.mk.injEq] at h1
          omega
        · rw [if_neg hc] at h1
          simp at h1
      · by_cases hc : 0 < p1
        · rw [if_pos hc] at h1
          simp only [List.mem_singleton, Prod.mk.injEq] at h1
          omega
        · rw [if_neg hc] at h1
          simp at h1
      · by_cases hc : p2 < width - 1
        · rw [if_pos hc] at h1
          simp only [List.mem_singleton, Prod.mk.injEq] at h1
          omega
        · rw [if_neg hc] at h1
          simp at h1
      · by_cases hc : p1 < height - 1
        · rw [if_pos hc] at h1
          simp only [List.mem_singleton, Prod.mk.injEq] at h1
          omega
        · rw [if_neg hc] at h1
          simp at h1
    exact ⟨hco.1, hco.2, hnotin⟩
  · rintro ⟨hadj, hinb, hnotin⟩
    refine ⟨?_, by simpa using hnotin⟩
    rcases hadj with ⟨h1, h2 | h2⟩ | ⟨h1, h2 | h2⟩
    · refine Or.inl (Or.inr ?_)
      rw [if_pos (show p2 < width - 1 by omega)]
      simp only [List.mem_singleton, Prod.mk.injEq]
      omega
    · refine Or.inl (Or.inl (Or.inl ?_))
      rw [if_pos (show 0 < p2 by omega)]
      simp only [List.mem_singleton, Prod.mk.injEq]
      omega
    · refine Or.inr ?_
      rw [if_pos (show p1 < height - 1 by omega)]
      simp only [List.mem_singleton, Prod.mk.injEq]
      omega
    · refine Or.inl (Or.inl (Or.inr ?_))
      rw [if_pos (show 0 < p1 by omega)]
      simp only [List.mem_singleton, Prod.mk.injEq]
      omega
/-- Complete description of one relaxation pass: distances only decrease
and only at candidates, the heap only gains entries, each gained entry
records a strict improvement by `k + cost n`, every strict improvement has
a matching fresh entry, and the early-exit flag is set exactly by an
improvement of the end position. -/
theorem relax_loop_spec (cost : Position → Nat) (endP : Position) (k : Nat) :
    ∀ (ns : List Position) (dist : Position → Nat) (heap : List NodeInfo),
      (∀ p, (relax_loop cost endP k ns dist heap).1 p ≤ dist p) ∧
      (∀ p, p ∉ ns → (relax_loop cost endP k ns dist heap).1 p = dist p) ∧
      (∀ e ∈ heap, e ∈ (relax_loop cost endP k ns dist heap).2.1) ∧
      (∀ e ∈ (relax_loop cost endP k ns dist heap).2.1, e ∈ heap ∨
        ∃ n ∈ ns, e = ⟨n, cost n, k + cost n⟩ ∧ k + cost n < dist n ∧
          (n = endP → (relax_loop cost endP k ns dist heap).2.2 = true)) ∧
      (∀ p, (relax_loop cost endP k ns dist heap).1 p < dist p →
        ∃ e ∈ (relax_loop cost endP k ns dist heap).2.1,
          e.position = p ∧ e.dist_from_src =
            (relax_loop cost endP k ns dist heap).1 p) ∧
      ((relax_loop cost endP k ns dist heap).2.2 = false →
        (∀ n ∈ ns, (relax_loop cost endP k ns dist heap).1 n ≤ k + cost n) ∧
        (relax_loop cost endP k ns dist heap).1 endP = dist endP) ∧
      ((relax_loop cost endP k ns dist heap).2.2 = true →
        (relax_loop cost endP k ns dist heap).1 endP = k + cost endP ∧
          k + cost endP < dist endP ∧ endP ∈ ns) := by
  intro ns
  induction ns with
  | nil =>
      intro dist heap
      refine ⟨fun p => le_refl _, fun p _ => rfl, fun e he => he,
        fun e he => Or.inl he, fun p hp => absurd hp (by simp [relax_loop]),
        fun _ => ⟨fun n hn => absurd hn (List.not_mem_nil n), rfl⟩,
        fun hff => by simp [relax_loop] at hff⟩
  | cons n ns ih =>
      intro dist heap
      rw [relax_loop]
      by_cases hlt : k + cost n < dist n
      · rw [if_pos hlt]
        by_cases hend : n = endP
        · rw [if_pos hend]
          subst hend
          dsimp only
          refine ⟨?_, ?_, ?_, ?_, ?_, ?_, ?_⟩
          · intro p
            by_cases hp : p = n
            · subst hp
              rw [Function.update_same]
              omega
            · rw [Function.update_noteq hp]
          · intro p hp
            rw [Function.update_noteq
              (fun h => hp (by rw [h]; exact List.mem_cons_self n ns))]
          · intro e he
            exact List.mem_cons_of_mem _ he
          · intro e he
            rcases List.mem_cons.mp he with rfl | he2
            · exact Or.inr ⟨n, List.mem_cons_self n ns, rfl, hlt, fun _ => rfl⟩
            · exact Or.inl he2
          · intro p hp
            by_cases hpn : p = n
            · subst hpn
              refine ⟨⟨p, cost p, k + cost p⟩, List.mem_cons_self _ _, rfl, ?_⟩
              rw [Function.update_same]
            · rw [Function.update_noteq hpn] at hp
              omega
          · intro hff
            simp at hff
          · intro _
            exact ⟨Function.update_same n (k + cost n) dist, hlt,
              List.mem_cons_self n ns⟩
        · rw [if_neg hend]
          obtain ⟨Rmono, Runtouch, Rkeep, Rsrc, Rfresh, Rff, Rft⟩ :=
            ih (Function.update dist n (k + cost n))
              (⟨n, cost n, k + cost n⟩ :: heap)
          refine ⟨?_, ?_, ?_, ?_, ?_, ?_, ?_⟩
          · intro p
            refine le_trans (Rmono p) ?_
            by_cases hp : p = n
            · subst hp
              rw [Function.update_same]
              omega
            · rw [Function.update_noteq hp]
          · intro p hp
            rw [Runtouch p (fun h => hp (List.mem_cons_of_mem n h)),
              Function.update_noteq
                (fun h => hp (by rw [h]; exact List.mem_cons_self n ns))]
          · intro e he
            exact Rkeep e (List.mem_cons_of_mem _ he)
          · intro e he
            rcases Rsrc e he with he2 | ⟨m, hm, hme, hmlt, hmf⟩
            · rcases List.mem_cons.mp he2 with rfl | he3
              · exact Or.inr ⟨n, List.mem_cons_self n ns, rfl, hlt,
                  fun h => absurd h hend⟩
              · exact Or.inl he3
            · refine Or.inr ⟨m, List.mem_cons_of_mem n hm, hme, ?_, hmf⟩
              by_cases hmn : m = n
              · subst hmn
                rw [Function.update_same] at hmlt
                omega
              · rw [Function.update_noteq hmn] at hmlt
                exact hmlt
          · intro p hp
            by_cases hlt2 : (relax_loop cost endP k ns
                (Function.update dist n (k + cost n))
                (⟨n, cost n, k + cost n⟩ :: heap)).1 p <
                Function.update dist n (k + cost n) p
            · exact Rfresh p hlt2
            · push_neg at hlt2
              by_cases hpn : p = n
              · subst hpn
                have heq : (relax_loop cost endP k ns
                    (Function.update dist p (k + cost p))
                    (⟨p, cost p, k + cost p⟩ :: heap)).1 p = k + cost p := by
                  have h1 := Rmono p
                  rw [Function.update_same] at h1 hlt2
                  omega
                refine ⟨⟨p, cost p, k + cost p⟩,
                  Rkeep _ (List.mem_cons_self _ _), rfl, ?_⟩
                rw [heq]
              · rw [Function.update_noteq hpn] at hlt2
                have h1 := Rmono p
                rw [Function.update_noteq hpn] at h1
                omega
          · intro hff
            obtain ⟨Rf1, Rf2⟩ := Rff hff
            constructor
            · intro m hm
              rcases List.mem_cons.mp hm with rfl | hm2
              · refine le_trans (Rmono m) ?_
                rw [Function.update_same]
              · exact Rf1 m hm2
            · rw [Rf2, Function.update_noteq (fun h => hend h.symm)]
          · intro hft
            obtain ⟨Rt1, Rt2, Rt3⟩ := Rft hft
            rw [Function.update_noteq (fun h => hend h.symm)] at Rt2
            exact ⟨Rt1, Rt2, List.mem_cons_of_mem n Rt3⟩
      · rw [if_neg hlt]
        obtain ⟨Rmono, Runtouch, Rkeep, Rsrc, Rfresh, Rff, Rft⟩ :=
          ih dist heap
        refine ⟨Rmono, ?_, Rkeep, ?_, Rfresh, ?_, ?_⟩
        · intro p hp
          exact Runtouch p (fun h => hp (List.mem_cons_of_mem n h))
        · intro e he
          rcases Rsrc e he with he2 | ⟨m, hm, hme, hmlt, hmf⟩
          · exact Or.inl he2
          · exact Or.inr ⟨m, List.mem_cons_of_mem n hm, hme, hmlt, hmf⟩
        · intro hff
          obtain ⟨Rf1, Rf2⟩ := Rff hff
          refine ⟨?_, Rf2⟩
          intro m hm
          rcases List.mem_cons.mp hm with rfl | hm2
          · have h1 := Rmono m
            omega
          · exact Rf1 m hm2
        · intro hft
          obtain ⟨Rt1, Rt2, Rt3⟩ := Rft hft
          exact ⟨Rt1, Rt2, List.mem_cons_of_mem n Rt3⟩
/-- Crossing lemma: any path cost is witnessed by some position whose
current distance is below the corresponding path prefix cost and which is
either the path's endpoint or not yet finished. -/
theorem dijkstra_crossing {height width : Nat} {cost : Position → Nat}
    {end_pos : Position} {s : DState}
    (hinv : DInv height width cost end_pos s) :
    ∀ {p : Position} {c : Nat}, Reach height width cost p c →
      ∃ q cq, cq ≤ c ∧ s.dist q ≤ cq ∧ (q = p ∨ q ∉ s.finished) := by
  intro p c h
  induction h with
  | base =>
      exact ⟨(0, 0), 0, le_refl 0, le_of_eq hinv.dist_start, Or.inl rfl⟩
  | step hreach hadj hinb ih =>
      obtain ⟨r, cr, hcr, hdr, hror⟩ := ih
      rcases hror with rfl | hnf
      · by_cases hf : r ∈ s.finished
        · refine ⟨_, _, le_refl _,
            le_trans (hinv.fin_edge r hf _ hadj hinb) ?_, Or.inl rfl⟩
          omega
        · exact ⟨r, cr, by omega, hdr, Or.inr hf⟩
      · exact ⟨r, cr, by omega, hdr, Or.inr hnf⟩

/-- Every map cell is reached by some path of cost at most `9` per
step (walking right along the top row, then down). -/
theorem reach_exists {height width : Nat} (cost : Position → Nat)
    (hcost : ∀ p, InBounds height width p → cost p ≤ 9) :
    ∀ i j, i < height → j < width →
      ∃ c, Reach height width cost (i, j) c ∧ c ≤ 9 * (i + j) := by
  intro i
  induction i with
  | zero =>
      intro j
      induction j with
      | zero =>
          intro _ _
          exact ⟨0, Reach.base, by omega⟩
      | succ j ihj =>
          intro hi hj
          obtain ⟨c, hc, hcb⟩ := ihj hi (by omega)
          refine ⟨c + cost (0, j + 1),
            Reach.step hc (Or.inl ⟨rfl, Or.inl rfl⟩) ⟨hi, hj⟩, ?_⟩
          have := hcost (0, j + 1) ⟨hi, hj⟩
          omega
  | succ i ihi =>
      intro j hi hj
      obtain ⟨c, hc, hcb⟩ := ihi j (by omega) hj
      refine ⟨c + cost (i + 1, j),
        Reach.step hc (Or.inr ⟨rfl, Or.inl rfl⟩) ⟨hi, hj⟩, ?_⟩
      have := hcost (i + 1, j) ⟨hi, hj⟩
      omega

/-- A list of in-bounds positions has at most `height * width` distinct
elements. -/
theorem toFinset_card_le_grid {height width : Nat} {l : List Position}
    (h : ∀ p ∈ l, InBounds height width p) :
    l.toFinset.card ≤ height * width := by
  have hsub : l.toFinset ⊆ gridFinset height width := by
    intro p hp
    rw [List.mem_toFinset] at hp
    have h2 := h p hp
    simp only [gridFinset, Finset.mem_product, Finset.mem_range]
    exact ⟨h2.1, h2.2⟩
  calc l.toFinset.card ≤ (gridFinset height width).card :=
        Finset.card_le_card hsub
    _ = height * width := by
        simp [gridFinset]

/-- A relaxation pass over candidates that cannot improve any distance
leaves the state untouched. -/
theorem relax_loop_nop (cost : Position → Nat) (endP : Position) (k : Nat) :
    ∀ (ns : List Position) (dist : Position → Nat) (heap : List NodeInfo),
      (∀ n ∈ ns, ¬(k + cost n < dist n)) →
      relax_loop cost endP k ns dist heap = (dist, heap, false) := by
  intro ns
  induction ns with
  | nil =>
      intro dist heap _
      rfl
  | cons n ns ih =>
      intro dist heap hno
      rw [relax_loop, if_neg (hno n (List.mem_cons_self n ns))]
      exact ih dist heap (fun m hm => hno m (List.mem_cons_of_mem n hm))

/-- For positive `height` and `width` the semi-perimeter is below the
area plus one. -/
theorem add_le_mul_succ {height width : Nat} (hH : 0 < height)
    (hW : 0 < width) : height + width ≤ height * width + 1 := by
  obtain ⟨a, rfl⟩ : ∃ a, height = a + 1 := ⟨height - 1, by omega⟩
  obtain ⟨b, rfl⟩ : ∃ b, width = b + 1 := ⟨width - 1, by omega⟩
  have hm : (a + 1) * (b + 1) = a * b + a + b + 1 := by ring
  omega
/-- A popped node's distance is already minimal over all reaching paths. -/
theorem dijkstra_pop_settled {height width : Nat} {cost : Position → Nat}
    {end_pos : Position} {s : DState}
    (hinv : DInv height width cost end_pos s) {curr : NodeInfo}
    {rest : List NodeInfo} (hpop : popMax s.heap = some (curr, rest)) :
    ∀ c, Reach height width cost curr.position c →
      s.dist curr.position ≤ c := by
  intro c hc
  have hcurr : curr ∈ s.heap :=
    (popMax_perm hpop).symm.subset (List.mem_cons_self _ _)
  obtain ⟨_, hkM, hdk, _, _⟩ := hinv.heap_inv curr hcurr
  obtain ⟨q, cq, hcq, hdq, hor⟩ := dijkstra_crossing hinv hc
  rcases hor with rfl | hnf
  · omega
  · by_cases hqM : s.dist q = usizeMAX
    · omega
    · obtain ⟨e, he, hep, hek⟩ := hinv.fresh q hnf hqM
      have hmin := popMax_min hpop e he
      rw [hek] at hmin
      omega

/-- A popped node that is not yet finished is popped with its current
distance as key. -/
theorem dijkstra_pop_fresh_key {height width : Nat} {cost : Position → Nat}
    {end_pos : Position} {s : DState}
    (hinv : DInv height width cost end_pos s) {curr : NodeInfo}
    {rest : List NodeInfo} (hpop : popMax s.heap = some (curr, rest))
    (hnf : curr.position ∉ s.finished) :
    curr.dist_from_src = s.dist curr.position := by
  have hcurr : curr ∈ s.heap :=
    (popMax_perm hpop).symm.subset (List.mem_cons_self _ _)
  obtain ⟨_, hkM, hdk, _, _⟩ := hinv.heap_inv curr hcurr
  have hdM : s.dist curr.position ≠ usizeMAX := by omega
  obtain ⟨e, he, hep, hek⟩ := hinv.fresh curr.position hnf hdM
  have hmin := popMax_min hpop e he
  rw [hek] at hmin
  omega
/-- Popping an already-finished node changes nothing: every candidate is
already relaxed, so the pass is a no-op and the invariant carries over. -/
theorem DInv_stale {height width : Nat} {cost : Position → Nat}
    {end_pos : Position} {s : DState} {curr : NodeInfo}
    {rest : List NodeInfo}
    (hinv : DInv height width cost end_pos s)
    (hpop : popMax s.heap = some (curr, rest))
    (hst : curr.position ∈ s.finished) :
    relax_loop cost end_pos curr.dist_from_src
      (candidate_neighbors height width curr.position s.finished)
      s.dist rest = (s.dist, rest, false) ∧
    DInv height width cost end_pos
      ⟨s.dist, rest, s.finished ++ [curr.position]⟩ := by
  have hcurr : curr ∈ s.heap :=
    (popMax_perm hpop).symm.subset (List.mem_cons_self _ _)
  obtain ⟨hcinb, hkM, hdk, hcreach, hkb⟩ := hinv.heap_inv curr hcurr
  have hnop : ∀ n ∈ candidate_neighbors height width curr.position
      s.finished, ¬(curr.dist_from_src + cost n < s.dist n) := by
    intro n hn
    obtain ⟨hadj, hinb, hnf⟩ := (mem_candidate_neighbors hcinb).mp hn
    have := hinv.fin_edge curr.position hst n hadj hinb
    omega
  have hrel := relax_loop_nop cost end_pos curr.dist_from_src
    (candidate_neighbors height width curr.position s.finished)
    s.dist rest hnop
  refine ⟨hrel, ?_⟩
  have hrest_mem : ∀ e ∈ rest, e ∈ s.heap := fun e he =>
    (popMax_perm hpop).symm.subset (List.mem_cons_of_mem _ he)
  have hfin2 : ∀ p, p ∈ s.finished ++ [curr.position] ↔ p ∈ s.finished := by
    intro p
    rw [List.mem_append, List.mem_singleton]
    constructor
    · rintro (h | rfl)
      · exact h
      · exact hst
    · exact Or.inl
  have hcard : (s.finished ++ [curr.position]).toFinset =
      s.finished.toFinset := by
    ext p
    simp only [List.mem_toFinset]
    exact hfin2 p
  refine ⟨hinv.dist_start, hinv.dist_le, hinv.dist_reach, ?_, ?_, ?_, ?_,
    ?_, ?_, ?_, ?_⟩
  · intro p hp
    rw [hcard]
    exact hinv.dist_bound p hp
  · intro e he
    rw [hcard]
    exact hinv.heap_inv e (hrest_mem e he)
  · intro p hp
    exact hinv.fin_inb p ((hfin2 p).mp hp)
  · intro p hp
    exact hinv.fin_ne p ((hfin2 p).mp hp)
  · intro p hp
    exact hinv.fin_edge p ((hfin2 p).mp hp)
  · intro p hp
    exact hinv.fin_min p ((hfin2 p).mp hp)
  · intro p hp hpM
    have hp2 : p ∉ s.finished := fun h => hp ((hfin2 p).mpr h)
    obtain ⟨e, he, hep, hek⟩ := hinv.fresh p hp2 hpM
    refine ⟨e, ?_, hep, hek⟩
    have hin2 : e ∈ curr :: rest := (popMax_perm hpop).subset he
    rcases List.mem_cons.mp hin2 with rfl | h2
    · exact absurd (hep ▸ hst) hp2
    · exact h2
  · intro hne
    obtain ⟨h1, h2, h3⟩ := hinv.end_univ hne
    refine ⟨h1, ?_, fun e he => h3 e (hrest_mem e he)⟩
    intro hmem
    exact h2 ((hfin2 end_pos).mp hmem)
/-- Popping a fresh node and relaxing its unfinished neighbours (without
hitting the end position) preserves the invariant with the node added to
the finished set. -/
theorem DInv_fresh_step {height width : Nat} {cost : Position → Nat}
    {end_pos : Position} {s : DState} {curr : NodeInfo}
    {rest : List NodeInfo} {d2 : Position → Nat} {h2 : List NodeInfo}
    (hcost : ∀ p, InBounds height width p → cost p ≤ 9)
    (hsize : 9 * (height * width + 2) < usizeMAX)
    (hinv : DInv height width cost end_pos s)
    (hpop : popMax s.heap = some (curr, rest))
    (hnf : curr.position ∉ s.finished)
    (hr : relax_loop cost end_pos curr.dist_from_src
      (candidate_neighbors height width curr.position s.finished)
      s.dist rest = (d2, h2, false)) :
    DInv height width cost end_pos
      ⟨d2, h2, s.finished ++ [curr.position]⟩ := by
  have hcurr : curr ∈ s.heap :=
    (popMax_perm hpop).symm.subset (List.mem_cons_self _ _)
  obtain ⟨hcinb, hkM, hdk, hcreach, hkb⟩ := hinv.heap_inv curr hcurr
  have hkey := dijkstra_pop_fresh_key hinv hpop hnf
  have hsettle := dijkstra_pop_settled hinv hpop
  obtain ⟨Rmono, Runtouch, Rkeep, Rsrc, Rfresh, Rff, Rft⟩ :=
    relax_loop_spec cost end_pos curr.dist_from_src
      (candidate_neighbors height width curr.position s.finished)
      s.dist rest
  simp only [hr] at Rmono Runtouch Rkeep Rsrc Rfresh Rff Rft
  obtain ⟨Rf1, Rf2⟩ := Rff trivial
  have hrest_mem : ∀ e ∈ rest, e ∈ s.heap := fun e he =>
    (popMax_perm hpop).symm.subset (List.mem_cons_of_mem _ he)
  have hcands : ∀ n ∈ candidate_neighbors height width curr.position
      s.finished, AdjacentPos curr.position n ∧
      InBounds height width n ∧ n ∉ s.finished :=
    fun n hn => (mem_candidate_neighbors hcinb).mp hn
  have hcands2 : ∀ n, AdjacentPos curr.position n →
      InBounds height width n → n ∉ s.finished →
      n ∈ candidate_neighbors height width curr.position s.finished :=
    fun n ha hb hc => (mem_candidate_neighbors hcinb).mpr ⟨ha, hb, hc⟩
  have hnotc : curr.position ∉ candidate_neighbors height width
      curr.position s.finished :=
    fun h => (adjacentPos_ne (hcands _ h).1) rfl
  have hfin_same : ∀ p ∈ s.finished, d2 p = s.dist p :=
    fun p hp => Runtouch p (fun hc => (hcands p hc).2.2 hp)
  have hcurr_same : d2 curr.position = s.dist curr.position :=
    Runtouch _ hnotc
  have hnew : ∀ e ∈ h2, e ∈ rest ∨
      ∃ n ∈ candidate_neighbors height width curr.position s.finished,
        e = ⟨n, cost n, curr.dist_from_src + cost n⟩ ∧
        curr.dist_from_src + cost n < s.dist n ∧ n ≠ end_pos := by
    intro e he
    rcases Rsrc e he with h | ⟨n, hn, hne, hnlt, hnf2⟩
    · exact Or.inl h
    · refine Or.inr ⟨n, hn, hne, hnlt, fun hh => ?_⟩
      simpa using hnf2 hh
  have hcardle0 : s.finished.toFinset.card ≤ height * width :=
    toFinset_card_le_grid hinv.fin_inb
  have hcardval : (s.finished ++ [curr.position]).toFinset.card =
      s.finished.toFinset.card + 1 := by
    have hins : (s.finished ++ [curr.position]).toFinset =
        insert curr.position s.finished.toFinset := by
      ext p
      simp only [List.mem_toFinset, List.mem_append, List.mem_singleton,
        Finset.mem_insert]
      exact or_comm
    rw [hins, Finset.card_insert_of_not_mem
      (by rw [List.mem_toFinset]; exact hnf)]
  refine ⟨?_, ?_, ?_, ?_, ?_, ?_, ?_, ?_, ?_, ?_, ?_⟩ <;> dsimp only
  · have h0 := Rmono (0, 0)
    rw [hinv.dist_start] at h0
    omega
  · exact fun p => le_trans (Rmono p) (hinv.dist_le p)
  · intro p hpM
    by_cases heq : d2 p = s.dist p
    · rw [heq] at hpM ⊢
      exact hinv.dist_reach p hpM
    · have hlt := lt_of_le_of_ne (Rmono p) heq
      obtain ⟨e, he, hep, hek⟩ := Rfresh p hlt
      rcases hnew e he with he2 | ⟨n, hn, rfl, hnlt, _⟩
      · obtain ⟨_, _, hde, _, _⟩ := hinv.heap_inv e (hrest_mem e he2)
        rw [hep, hek] at hde
        omega
      · obtain ⟨hadj, hinb, _⟩ := hcands n hn
        dsimp only at hep hek
        subst hep
        rw [← hek]
        exact Reach.step hcreach hadj hinb
  · intro p hpM
    rw [hcardval]
    by_cases heq : d2 p = s.dist p
    · rw [heq] at hpM ⊢
      have := hinv.dist_bound p hpM
      omega
    · have hlt := lt_of_le_of_ne (Rmono p) heq
      obtain ⟨e, he, hep, hek⟩ := Rfresh p hlt
      rcases hnew e he with he2 | ⟨n, hn, rfl, hnlt, _⟩
      · obtain ⟨_, _, hde, _, _⟩ := hinv.heap_inv e (hrest_mem e he2)
        rw [hep, hek] at hde
        omega
      · obtain ⟨hadj, hinb, _⟩ := hcands n hn
        have hck := hcost n hinb
        dsimp only at hep hek
        subst hep
        rw [← hek]
        omega
  · intro e he
    rw [hcardval]
    rcases hnew e he with he2 | ⟨n, hn, rfl, hnlt, _⟩
    · obtain ⟨h1, h2x, h3, h4, h5⟩ := hinv.heap_inv e (hrest_mem e he2)
      exact ⟨h1, h2x, le_trans (Rmono _) h3, h4, by omega⟩
    · obtain ⟨hadj, hinb, hnotf⟩ := hcands n hn
      have hck := hcost n hinb
      dsimp only
      refine ⟨hinb, by omega, Rf1 n hn, Reach.step hcreach hadj hinb,
        by omega⟩
  · intro p hp
    rcases List.mem_append.mp hp with h | h
    · exact hinv.fin_inb p h
    · rw [List.mem_singleton] at h
      rw [h]
      exact hcinb
  · intro p hp
    rcases List.mem_append.mp hp with h | h
    · rw [hfin_same p h]
      exact hinv.fin_ne p h
    · rw [List.mem_singleton] at h
      rw [h, hcurr_same]
      omega
  · intro p hp n hadj hinb
    rcases List.mem_append.mp hp with h | h
    · rw [hfin_same p h]
      exact le_trans (Rmono n) (hinv.fin_edge p h n hadj hinb)
    · rw [List.mem_singleton] at h
      subst h
      rw [hcurr_same, ← hkey]
      by_cases hnft : n ∈ s.finished
      · rw [hfin_same n hnft]
        exact hinv.fin_min n hnft _ (Reach.step hcreach hadj hinb)
      · exact Rf1 n (hcands2 n hadj hinb hnft)
  · intro p hp c hc
    rcases List.mem_append.mp hp with h | h
    · rw [hfin_same p h]
      exact hinv.fin_min p h c hc
    · rw [List.mem_singleton] at h
      subst h
      rw [hcurr_same]
      exact hsettle c hc
  · intro p hp hpM
    have hp1 : p ∉ s.finished :=
      fun h => hp (List.mem_append.mpr (Or.inl h))
    have hp2 : p ≠ curr.position := by
      intro h
      apply hp
      rw [List.mem_append, List.mem_singleton]
      exact Or.inr h
    by_cases heq : d2 p = s.dist p
    · rw [heq] at hpM
      obtain ⟨e, he, hep, hek⟩ := hinv.fresh p hp1 hpM
      have hin2 : e ∈ curr :: rest := (popMax_perm hpop).subset he
      rcases List.mem_cons.mp hin2 with rfl | he3
      · exact absurd hep.symm hp2
      · exact ⟨e, Rkeep e he3, hep, by rw [hek, heq]⟩
    · exact Rfresh p (lt_of_le_of_ne (Rmono p) heq)
  · intro hne
    obtain ⟨he1, he2, he3⟩ := hinv.end_univ hne
    refine ⟨?_, ?_, ?_⟩
    · rw [Rf2]
      exact he1
    · intro hmem
      rcases List.mem_append.mp hmem with h | h
      · exact he2 h
      · rw [List.mem_singleton] at h
        exact he3 curr hcurr h.symm
    · intro e he
      rcases hnew e he with he4 | ⟨n, hn, rfl, _, hnend⟩
      · exact he3 e (hrest_mem e he4)
      · exact hnend
/-- Case analysis on a reaching path. -/
theorem Reach.elim_cases {height width : Nat} {cost : Position → Nat}
    {p : Position} {c : Nat} (h : Reach height width cost p c) :
    (p = (0, 0) ∧ c = 0) ∨
      ∃ p2 c2, Reach height width cost p2 c2 ∧ AdjacentPos p2 p ∧
        InBounds height width p ∧ c = c2 + cost p := by
  cases h with
  | base => exact Or.inl ⟨rfl, rfl⟩
  | step h1 h2 h3 => exact Or.inr ⟨_, _, h1, h2, h3, rfl⟩

/-- When the relaxation pass improves the end position (the early
`return`), the improved value is the exact shortest-path cost. -/
theorem dijkstra_early_exit {height width : Nat} {cost : Position → Nat}
    {s : DState} {curr : NodeInfo} {rest : List NodeInfo}
    {d2 : Position → Nat} {h2 : List NodeInfo}
    (hH : 0 < height) (hW : 0 < width)
    (hcost : ∀ p, InBounds height width p → cost p ≤ 9)
    (hsize : 9 * (height * width + 2) < usizeMAX)
    (hinv : DInv height width cost (height - 1, width - 1) s)
    (hpop : popMax s.heap = some (curr, rest))
    (hr : relax_loop cost (height - 1, width - 1) curr.dist_from_src
      (candidate_neighbors height width curr.position s.finished)
      s.dist rest = (d2, h2, true)) :
    IsLeast {c | Reach height width cost (height - 1, width - 1) c}
      (d2 (height - 1, width - 1)) := by
  have hcurr : curr ∈ s.heap :=
    (popMax_perm hpop).symm.subset (List.mem_cons_self _ _)
  obtain ⟨hcinb, hkM, hdk, hcreach, hkb⟩ := hinv.heap_inv curr hcurr
  obtain ⟨Rmono, Runtouch, Rkeep, Rsrc, Rfresh, Rff, Rft⟩ :=
    relax_loop_spec cost (height - 1, width - 1) curr.dist_from_src
      (candidate_neighbors height width curr.position s.finished)
      s.dist rest
  simp only [hr] at Rmono Runtouch Rkeep Rsrc Rfresh Rff Rft
  obtain ⟨Rt1, Rt2, Rt3⟩ := Rft trivial
  obtain ⟨hadj, hinb, hnfin⟩ := (mem_candidate_neighbors hcinb).mp Rt3
  have hne : ((height - 1 : Nat), (width - 1 : Nat)) ≠
      ((0, 0) : Position) := by
    intro h0
    rw [h0, hinv.dist_start] at Rt2
    omega
  obtain ⟨heM, _, _⟩ := hinv.end_univ hne
  constructor
  · show Reach height width cost (height - 1, width - 1)
      (d2 (height - 1, width - 1))
    rw [Rt1]
    exact Reach.step hcreach hadj hinb
  · intro c hc
    have hc2 : Reach height width cost (height - 1, width - 1) c := hc
    rw [Rt1]
    rcases hc2.elim_cases with ⟨h0, rfl⟩ | ⟨p2, c2, hp2, hadj2, hinb2, rfl⟩
    · exact absurd h0 hne
    · have hk_le : curr.dist_from_src ≤ c2 := by
        obtain ⟨q, cq, hcq, hdq, hor⟩ := dijkstra_crossing hinv hp2
        rcases hor with rfl | hnf
        · by_cases hf : q ∈ s.finished
          · exfalso
            have hrel2 := hinv.fin_edge q hf _ hadj2 hinb2
            have hbd := hinv.dist_bound q (hinv.fin_ne q hf)
            have hcard := toFinset_card_le_grid hinv.fin_inb
            have hc9 := hcost _ hinb2
            rw [heM] at hrel2
            omega
          · by_cases hqM : s.dist q = usizeMAX
            · omega
            · obtain ⟨e, he, hep, hek⟩ := hinv.fresh q hf hqM
              have hmin := popMax_min hpop e he
              rw [hek] at hmin
              omega
        · by_cases hqM : s.dist q = usizeMAX
          · omega
          · obtain ⟨e, he, hep, hek⟩ := hinv.fresh q hnf hqM
            have hmin := popMax_min hpop e he
            rw [hek] at hmin
            omega
      have hc9e := hcost _ hinb2
      omega
/-- Partial correctness of the main loop: whenever it returns, the
recorded distance of the bottom-right cell is the least cost over all
4-neighbour paths from the top-left cell. -/
theorem dijkstra_loop_correct {height width : Nat} {cost : Position → Nat}
    (hH : 0 < height) (hW : 0 < width)
    (hcost : ∀ p, InBounds height width p → cost p ≤ 9)
    (hsize : 9 * (height * width + 2) < usizeMAX) :
    ∀ (fuel : Nat) (s s2 : DState),
      DInv height width cost (height - 1, width - 1) s →
      dijkstra_loop height width cost (height - 1, width - 1) fuel s =
        some s2 →
      IsLeast {c | Reach height width cost (height - 1, width - 1) c}
        (s2.dist (height - 1, width - 1)) := by
  intro fuel
  induction fuel with
  | zero =>
      intro s s2 _ heq
      simp [dijkstra_loop] at heq
  | succ fuel ih =>
      intro s s2 hinv heq
      rw [dijkstra_loop] at heq
      cases hpop : popMax s.heap with
      | none =>
          rw [hpop] at heq
          simp only [Option.some.injEq] at heq
          subst heq
          have hheap : s.heap = [] := popMax_eq_none.mp hpop
          by_cases hse : ((height - 1 : Nat), (width - 1 : Nat)) =
              ((0, 0) : Position)
          · rw [hse]
            constructor
            · show Reach height width cost (0, 0) (s.dist (0, 0))
              rw [hinv.dist_start]
              exact Reach.base
            · intro c _
              rw [hinv.dist_start]
              exact Nat.zero_le c
          · exfalso
            obtain ⟨heM, hefin, _⟩ := hinv.end_univ hse
            obtain ⟨c0, hc0, hc0b⟩ := reach_exists cost hcost
              (height - 1) (width - 1) (by omega) (by omega)
            obtain ⟨q, cq, hcq, hdq, hor⟩ := dijkstra_crossing hinv hc0
            have hsem : height + width ≤ height * width + 1 :=
              add_le_mul_succ hH hW
            rcases hor with rfl | hnf
            · rw [heM] at hdq
              omega
            · by_cases hqM : s.dist q = usizeMAX
              · rw [hqM] at hdq
                omega
              · obtain ⟨e, he, _, _⟩ := hinv.fresh q hnf hqM
                rw [hheap] at he
                simp at he
      | some pr =>
          obtain ⟨curr, rest⟩ := pr
          rw [hpop] at heq
          dsimp only at heq
          rcases hrel : relax_loop cost (height - 1, width - 1)
              curr.dist_from_src (candidate_neighbors height width
                curr.position s.finished) s.dist rest with ⟨d2, h2, flag⟩
          rw [hrel] at heq
          dsimp only at heq
          cases flag with
          | true =>
              rw [if_pos rfl] at heq
              simp only [Option.some.injEq] at heq
              subst heq
              exact dijkstra_early_exit hH hW hcost hsize hinv hpop hrel
          | false =>
              rw [if_neg (by simp)] at heq
              by_cases hst : curr.position ∈ s.finished
              · obtain ⟨hnop, hinv2⟩ := DInv_stale hinv hpop hst
                have hpair : ((d2, h2, false) :
                    (Position → Nat) × List NodeInfo × Bool) =
                    (s.dist, rest, false) := hrel.symm.trans hnop
                obtain ⟨hd, hh⟩ : d2 = s.dist ∧ h2 = rest := by
                  have h1 := congrArg Prod.fst hpair
                  have h2x := congrArg (fun x => x.2.1) hpair
                  exact ⟨h1, h2x⟩
                subst hd
                subst hh
                exact ih _ s2 hinv2 heq
              · have hinv2 := DInv_fresh_step hcost hsize hinv hpop hst hrel
                exact ih _ s2 hinv2 heq

/-- Claim C2: for every rectangular risk map (digit edge costs, realistic
size), whenever `shortest_path_to_bottom_right` returns, the
`dist_from_src` recorded for the bottom-right cell is exactly the minimum
over all 4-neighbour paths from the top-left cell of the sum of the edge
costs of the cells entered along the path. -/
theorem claim_C2_dijkstra (height width : Nat) (cost : Position → Nat)
    (hH : 0 < height) (hW : 0 < width)
    (hcost : ∀ p, InBounds height width p → cost p ≤ 9)
    (hsize : 9 * (height * width + 2) < usizeMAX)
    (fuel : Nat) (s2 : DState)
    (hrun : shortest_path_to_bottom_right height width cost fuel =
      some s2) :
    IsLeast {c | Reach height width cost (height - 1, width - 1) c}
      (s2.dist (height - 1, width - 1)) := by
  have hinv0 : DInv height width cost (height - 1, width - 1)
      ⟨Function.update (fun _ => usizeMAX) ((0 : Nat), (0 : Nat)) 0,
        [⟨(0, 0), cost (0, 0), 0⟩], []⟩ := by
    refine ⟨?_, ?_, ?_, ?_, ?_, ?_, ?_, ?_, ?_, ?_, ?_⟩ <;> dsimp only
    · exact Function.update_same _ _ _
    · intro p
      by_cases hp : p = ((0 : Nat), (0 : Nat))
      · subst hp
        rw [Function.update_same]
        exact Nat.zero_le _
      · rw [Function.update_noteq hp]
    · intro p hpM
      by_cases hp : p = ((0 : Nat), (0 : Nat))
      · subst hp
        rw [Function.update_same]
        exact Reach.base
      · rw [Function.update_noteq hp] at hpM
        exact absurd rfl hpM
    · intro p hpM
      by_cases hp : p = ((0 : Nat), (0 : Nat))
      · subst hp
        rw [Function.update_same]
        omega
      · rw [Function.update_noteq hp] at hpM
        exact absurd rfl hpM
    · intro e he
      rw [List.mem_singleton] at he
      subst he
      dsimp only
      refine ⟨⟨hH, hW⟩, by omega, ?_, Reach.base, by omega⟩
      rw [Function.update_same]
    · intro p hp
      simp at hp
    · intro p hp
      simp at hp
    · intro p hp
      simp at hp
    · intro p hp
      simp at hp
    · intro p _ hpM
      by_cases hp : p = ((0 : Nat), (0 : Nat))
      · subst hp
        refine ⟨⟨(0, 0), cost (0, 0), 0⟩, List.mem_singleton.mpr rfl,
          rfl, ?_⟩
        rw [Function.update_same]
      · rw [Function.update_noteq hp] at hpM
        exact absurd rfl hpM
    · intro hne
      refine ⟨Function.update_noteq hne _ _, by simp, ?_⟩
      intro e he
      rw [List.mem_singleton] at he
      subst he
      exact fun h => hne h.symm
  rw [shortest_path_to_bottom_right] at hrun
  exact dijkstra_loop_correct hH hW hcost hsize fuel _ s2 hinv0 hrun

/-- Witness for claim C2 on the 1-by-1 map of cost 1. -/
theorem claim_C2_witness :
    IsLeast {c | Reach 1 1 (fun _ => 1) (1 - 1, 1 - 1) c}
      ((⟨Function.update (fun _ => usizeMAX) ((0 : Nat), (0 : Nat)) 0, [],
        [((0 : Nat), (0 : Nat))]⟩ : DState).dist (1 - 1, 1 - 1)) :=
  claim_C2_dijkstra 1 1 (fun _ => 1) (by omega) (by omega)
    (fun _ _ => by show (1 : Nat) ≤ 9; omega) (by norm_num [usizeMAX]) 2
    ⟨Function.update (fun _ => usizeMAX) ((0 : Nat), (0 : Nat)) 0, [],
      [((0 : Nat), (0 : Nat))]⟩ (by rfl)
